import Mathlib

/-!
Verification of the versioned-document + vector-index core of the
streamlit book-editing assistant.

The development shallowly embeds:
* `src/knowledge/repo.py` — manifest/version repository over the Drive
  blob store (`save_doc`, `get_doc`, `append_version`);
* `pages/1_Editor_de_Livro.py` — the page-level save pipeline
  (`_next_version_meta`, `_ensure_doc_in_versoes_with`, `_save_and_index`);
* `src/embeddings/faiss_drive.py` — per-document and global embedding
  shards (`_load_or_create_index`, `upsert_texts_to_drive_index`,
  `rebuild_global_from_all_docs`);
* the chunking performed by `create_faiss_index` in
  `src/embeddings/vectorstore_faiss.py`, i.e. langchain's
  `CharacterTextSplitter(chunk_size, chunk_overlap)` with its default
  separator `"\n\n"`;
* the MMR retrieval configuration of `pages/3_Assistente.py`.

Conventions: epoch timestamps are passed explicitly (`now`), JSON
(de)serialisation of manifests is assumed faithful (a manifest blob holds
the manifest value), Python exceptions are modelled as `Option`/explicit
failure results, and the opaque embedding function is represented by its
output dimensionality only.
-/

namespace BookRepo

/-- The free-form `meta` mapping of a version, restricted to the keys the
repository and the editor page actually read or write
(`source`, `version_index`, `version_tag`, `canonical`). -/
structure Meta where
  source : Option String := none
  version_index : Option Nat := none
  version_tag : Option String := none
  canonical : Option Bool := none
deriving DecidableEq, Repr

/-- One entry of a manifest's `versions` list: `{ts, text, meta}`. -/
structure Version where
  ts : Nat
  text : String
  meta : Meta
deriving DecidableEq, Repr

/-- The per-document manifest `{id, created_at, versions}` persisted as
`{doc_id}.json`. -/
structure Manifest where
  id : String
  created_at : Nat
  versions : List Version
deriving DecidableEq, Repr

/-- Content of a blob in the `versoes/` folder: either a manifest JSON or a
per-version `.txt` artifact. -/
inductive Blob where
  | manifest (m : Manifest)
  | txt (s : String)
deriving DecidableEq, Repr

/-- A Drive file: a name plus content.  File ids are modelled as positions
in the folder's (append-only) file list. -/
structure DriveFile where
  name : String
  content : Blob
deriving DecidableEq, Repr

/-- The `versoes/` folder of the Drive app folder.  Drive allows several
files with the same name in one folder, so this is a list, not a map:
`upload_bytes` appends, `update_file_bytes` overwrites in place. -/
abbrev RStore := List DriveFile

/-- `find_file`: first file id (= index) whose name matches, as Drive's
`files[0]` of the name query. -/
def findFile : RStore → String → Option Nat
  | [], _ => none
  | f :: t, n => if f.name = n then some 0 else (findFile t n).map (· + 1)

/-- `upload_bytes`: always creates a new file (even under an existing
name) and returns its id. -/
def uploadBytes (s : RStore) (name : String) (b : Blob) : RStore × Nat :=
  (s ++ [⟨name, b⟩], s.length)

/-- `update_file_bytes`: replace the content of an existing file id,
keeping its name and id. -/
def updateFileBytes : RStore → Nat → Blob → RStore
  | [], _, _ => []
  | f :: t, 0, b => ⟨f.name, b⟩ :: t
  | f :: t, n + 1, b => f :: updateFileBytes t n b

/-- `_json_name`. -/
def jsonName (doc_id : String) : String := doc_id ++ ".json"

/-- Zero-padded 3-digit index used in version blob names
(`{version_index:03d}`). -/
def pad3 (n : Nat) : String :=
  if n < 10 then "00" ++ toString n
  else if n < 100 then "0" ++ toString n
  else toString n

/-- Name of a per-version `.txt` blob,
`{slug(doc_id)}__{slug(source)}__{nnn}.txt`.  `_slugify` (unidecode +
lowercasing) is elided: it is the identity on already slug-safe inputs and
no claim depends on the slug output. -/
def versionTxtName (doc_id source : String) (version_index : Nat) : String :=
  doc_id ++ "__" ++ source ++ "__" ++ pad3 version_index ++ ".txt"

/-- `_write_version_txt`: upload the per-version `.txt` blob. -/
def writeVersionTxt (s : RStore) (doc_id text source : String)
    (version_index : Nat) : RStore :=
  (uploadBytes s (versionTxtName doc_id source version_index) (.txt text)).1

/-- The manifest payload built by `save_doc`: zero versions when `text` is
empty, one initial version otherwise. -/
def savePayload (now : Nat) (doc_id text : String) (meta : Meta) : Manifest :=
  { id := doc_id, created_at := now,
    versions := if text = "" then [] else [⟨now, text, meta⟩] }

/-- `save_doc`: unconditionally uploads a fresh manifest blob (no
existence check), then writes the v1 `.txt` blob when `text` is nonempty.
Returns the new store and the manifest's file id. -/
def saveDoc (s : RStore) (now : Nat) (doc_id text : String) (meta : Meta) :
    RStore × Nat :=
  let payload := savePayload now doc_id text meta
  let up := uploadBytes s (jsonName doc_id) (.manifest payload)
  if text = "" then up
  else (writeVersionTxt up.1 doc_id text (meta.source.getD "versao") 1, up.2)

/-- `get_doc`: load the manifest, `none` when no file with the manifest
name exists (Python raises `FileNotFoundError`).  A found blob that is not
a manifest would raise a JSON error in Python; that state is unreachable
through the modelled operations and is mapped to `none` here. -/
def getDoc (s : RStore) (doc_id : String) : Option Manifest :=
  match findFile s (jsonName doc_id) with
  | none => none
  | some fid =>
    match s.get? fid with
    | some f =>
      match f.content with
      | .manifest m => some m
      | .txt _ => none
    | none => none

/-- `append_version`: when the manifest is absent it falls back to
`save_doc`; otherwise it appends `{ts, text, meta}` to `versions`,
overwrites the manifest in place, and writes the `.txt` blob for the new
version (index = new length of `versions`).  `none` models the (unreachable
via these operations) JSON failure on a non-manifest blob. -/
def appendVersion (s : RStore) (now : Nat) (doc_id text : String)
    (meta : Meta) : Option (RStore × Nat) :=
  match findFile s (jsonName doc_id) with
  | none => some (saveDoc s now doc_id text meta)
  | some fid =>
    match s.get? fid with
    | some f =>
      match f.content with
      | .manifest current =>
        let updated : Manifest :=
          { current with versions := current.versions ++ [⟨now, text, meta⟩] }
        let s1 := updateFileBytes s fid (.manifest updated)
        let s2 := writeVersionTxt s1 doc_id text (meta.source.getD "versao")
          updated.versions.length
        some (s2, fid)
      | .txt _ => none
    | none => none

/-- `_next_version_meta` from the editor page: read the current version
count (0 when the manifest is absent) and stamp
`version_index = count + 1` and `version_tag = {doc_id}_v{version_index}`
onto a copy of the base meta. -/
def nextVersionMeta (s : RStore) (doc_id : String) (metaBase : Meta) : Meta :=
  let count :=
    match getDoc s doc_id with
    | some m => m.versions.length
    | none => 0
  { metaBase with
    version_index := some (count + 1),
    version_tag := some (doc_id ++ "_v" ++ toString (count + 1)) }

/-- `_ensure_doc_in_versoes_with`: create the manifest via `save_doc`
(with the given text as the first version) when it does not exist yet. -/
def ensureDocInVersoesWith (s : RStore) (now : Nat) (doc_id text : String)
    (meta : Meta) : RStore :=
  match getDoc s doc_id with
  | some _ => s
  | none => (saveDoc s now doc_id text meta).1

/-- `_save_and_index` (manifest part): compute the next version meta,
ensure the manifest exists, then append.  The trailing vector-store
upsert of `_save_and_index` only touches the `vecstore/faiss` folder and
is modelled separately. -/
def saveAndIndex (s : RStore) (now : Nat) (doc_id text : String)
    (metaBase : Meta) : RStore :=
  let meta := nextVersionMeta s doc_id metaBase
  let s1 := ensureDocInVersoesWith s now doc_id text meta
  match appendVersion s1 now doc_id text meta with
  | some p => p.1
  | none => (saveDoc s1 now doc_id text meta).1

end BookRepo

namespace BookVec

/-- Metadata attached to a shard entry, restricted to the keys the shard
manager reads or writes (`doc_id`, `created_at`, the `bootstrap` tag). -/
structure EMeta where
  doc_id : Option String := none
  created_at : Option Nat := none
  bootstrap : Bool := false
deriving DecidableEq, Repr

/-- One `(chunk_text, embedding, metadata)` entry of a FAISS shard.  The
embedding vector itself is opaque; only its dimensionality matters for
merging, and that is recorded on the shard. -/
structure Entry where
  text : String
  meta : EMeta
deriving DecidableEq, Repr

/-- A FAISS vector-store shard: the embedding dimensionality of its index
plus its ordered entries. -/
structure Shard where
  dim : Nat
  entries : List Entry
deriving DecidableEq, Repr

/-- A persisted `.faiss.zip` blob: either a deserialisable shard or bytes
on which `_load_vectorstore_from_zip_bytes` raises. -/
inductive VBlob where
  | ok (sh : Shard)
  | corrupt
deriving DecidableEq, Repr

/-- The `vecstore/faiss` folder.  All writes go through `_put_file_bytes`
(update the first file of that name, else upload), so the folder behaves
as an association list with update-or-append semantics. -/
abbrev VStore := List (String × VBlob)

/-- First blob stored under a name (Drive's `files[0]`). -/
def lookupV : VStore → String → Option VBlob
  | [], _ => none
  | p :: t, n => if p.1 = n then some p.2 else lookupV t n

/-- `_put_file_bytes`: overwrite the first file with this name, or upload
a new one when absent. -/
def putV : VStore → String → VBlob → VStore
  | [], n, b => [(n, b)]
  | p :: t, n, b => if p.1 = n then (n, b) :: t else p :: putV t n b

/-- `GLOBAL_INDEX_BASENAME`. -/
def globalName : String := "_global.faiss.zip"

/-- `_name_for_doc`. -/
def docShardName (doc_id : String) : String := doc_id ++ ".faiss.zip"

/-- The `name_suffix=".faiss.zip"` filter of `list_files_in_folder`,
implemented over the underlying character list. -/
def endsWithZip (n : String) : Bool := ".faiss.zip".data.isSuffixOf n.data

/-- The placeholder entry `FAISS.from_texts(["__bootstrap__"], ...,
metadatas=[{"bootstrap": True}])` starts every freshly created shard. -/
def bootstrapEntry : Entry := ⟨"__bootstrap__", { bootstrap := true }⟩

/-- `_empty_index`, for the currently configured embedding model of
dimensionality `D`. -/
def emptyIndex (D : Nat) : Shard := ⟨D, [bootstrapEntry]⟩

/-- `_load_or_create_index`: a fresh bootstrap shard (`existed = false`)
when the blob is absent, and identically when present but failing to
deserialize; the stored shard (`existed = true`) otherwise. -/
def loadOrCreate (D : Nat) (s : VStore) (name : String) : Shard × Bool :=
  match lookupV s name with
  | none => (emptyIndex D, false)
  | some .corrupt => (emptyIndex D, false)
  | some (.ok sh) => (sh, true)

/-- `metadatas or [{} for _ in texts]`: Python truthiness replaces both
`None` and the empty list by per-text empty metadata. -/
def metasOrDefault (texts : List String) : Option (List EMeta) → List EMeta
  | some (m :: rest) => m :: rest
  | _ => texts.map fun _ => {}

/-- Metadata enrichment in `upsert_texts_to_drive_index`:
`setdefault("doc_id", doc_id)` and `setdefault("created_at", now)`. -/
def enrich (doc_id : String) (now : Nat) (m : EMeta) : EMeta :=
  { m with doc_id := some (m.doc_id.getD doc_id),
           created_at := some (m.created_at.getD now) }

/-- `FAISS.add_texts`: embed each text with the current model and append
the new entries.  The dimensionality compatibility of the target index is
checked by the caller (`upsert`). -/
def addTexts (sh : Shard) (texts : List String) (metas : List EMeta) : Shard :=
  { sh with entries := sh.entries ++ (texts.zip metas).map (fun p => ⟨p.1, p.2⟩) }

/-- `upsert_texts_to_drive_index`: on nonempty `texts`, enrich the
metadatas, then load-or-create, extend and persist first the per-document
shard and then the global shard.  The second component is the `added`
count; `none` there models the uncaught exception raised by `add_texts`
when the loaded index's dimensionality differs from the current embedding
model's `D` (in which case the writes performed so far persist). -/
def upsert (D now : Nat) (s : VStore) (doc_id : String) (texts : List String)
    (metadatas : Option (List EMeta)) : VStore × Option Nat :=
  if texts = [] then (s, some 0)
  else
    let metas := metasOrDefault texts metadatas
    let enriched := metas.map (enrich doc_id now)
    let vsDoc := (loadOrCreate D s (docShardName doc_id)).1
    if vsDoc.dim = D then
      let s1 := putV s (docShardName doc_id) (.ok (addTexts vsDoc texts enriched))
      let vsG := (loadOrCreate D s1 globalName).1
      if vsG.dim = D then
        (putV s1 globalName (.ok (addTexts vsG texts enriched)), some texts.length)
      else (s1, none)
    else (s, none)

/-- The merge loop of `rebuild_global_from_all_docs` over the listed
per-document zip files: blobs that fail to deserialize are skipped
(`except Exception: continue`); a successfully loaded shard either seeds
the accumulator or is merged into it by `merge_from`, which appends its
entries when the dimensionalities agree and raises otherwise — that
exception is not caught, so the whole loop fails (`none`). -/
def mergeAll : Option Shard → Nat → List (String × VBlob) →
    Option (Option Shard × Nat)
  | acc, n, [] => some (acc, n)
  | acc, n, (_, .corrupt) :: t => mergeAll acc n t
  | acc, n, (_, .ok sh) :: t =>
    match acc with
    | none => mergeAll (some sh) (n + 1) t
    | some m =>
      if sh.dim = m.dim then
        mergeAll (some ⟨m.dim, m.entries ++ sh.entries⟩) (n + 1) t
      else none

/-- The `{doc_id}.faiss.zip` files seen by `rebuild_global_from_all_docs`:
`list_files_in_folder(..., name_suffix=".faiss.zip", limit=1000)` issues a
single request with `pageSize = min(limit, 1000)` and no pagination
(drive.py:202), so at most the first 1000 files of the folder's listing
are ever seen; the suffix filter is applied to that page, and rebuild then
drops the global shard's own name.  (Drive lists by `modifiedTime desc`;
the store order stands in for that enumeration order.) -/
def docZipFiles (s : VStore) : List (String × VBlob) :=
  (s.take 1000).filter (fun p => endsWithZip p.1 && p.1 ≠ globalName)

/-- `rebuild_global_from_all_docs`: with no doc zips, persist a bootstrap
global shard (`sources = 0`); otherwise run the merge loop, fall back to a
bootstrap shard when every doc zip failed to load, and persist the result.
`none` in the second component models the uncaught `merge_from` exception,
which aborts before anything is written. -/
def rebuild (D : Nat) (s : VStore) : VStore × Option Nat :=
  let files := docZipFiles s
  if files = [] then (putV s globalName (.ok (emptyIndex D)), some 0)
  else
    match mergeAll none 0 files with
    | none => (s, none)
    | some (acc, n) =>
      (putV s globalName (.ok (acc.getD (emptyIndex D))), some n)

/-- Entries of the global shard as loadable from a store (empty when the
global blob is absent or corrupt). -/
def globalEntriesOf (s : VStore) : List Entry :=
  match lookupV s globalName with
  | some (.ok g) => g.entries
  | _ => []

/-- The shards among a list of zip files that deserialize successfully. -/
def okShards (l : List (String × VBlob)) : List Shard :=
  l.filterMap (fun p =>
    match p.2 with
    | .ok sh => some sh
    | .corrupt => none)

/-- Entries of one persisted blob (none when it fails to deserialize). -/
def entriesOfBlob : VBlob → List Entry
  | .ok sh => sh.entries
  | .corrupt => []

/-- Invariant of reachable vecstore states under a fixed embedding model
of dimensionality `D`: file names are unique and well-formed, every blob
is a deserialisable shard of dimensionality `D` containing the bootstrap
placeholder, the global shard is only ever absent in the empty store, and
the global shard's entries contain every per-document shard's entries. -/
def InvV (D : Nat) (s : VStore) : Prop :=
  (s.map Prod.fst).Nodup ∧
  (∀ p ∈ s, (∃ d, p.1 = docShardName d) ∨ p.1 = globalName) ∧
  (∀ p ∈ s, ∃ sh, p.2 = VBlob.ok sh ∧ sh.dim = D ∧
    bootstrapEntry ∈ sh.entries) ∧
  (lookupV s globalName = none → s = []) ∧
  (∀ n sh, n ≠ globalName → lookupV s n = some (VBlob.ok sh) →
    ∀ e ∈ sh.entries, e ∈ globalEntriesOf s)

/-- One state transition of the vector shard manager: an
`upsert_texts_to_drive_index` or a `rebuild_global_from_all_docs` call
under the configured embedding model of dimensionality `D` (partial
failures keep whatever was written before the failure). -/
inductive StepV (D : Nat) : VStore → VStore → Prop
  | upsert_step (s : VStore) (now : Nat) (doc_id : String)
      (texts : List String) (metadatas : Option (List EMeta)) :
      StepV D s (upsert D now s doc_id texts metadatas).1
  | rebuild_step (s : VStore) : StepV D s (rebuild D s).1

/-- Blob-store states reachable from the empty store by the shard
manager's operations. -/
def ReachableV (D : Nat) (s : VStore) : Prop :=
  Relation.ReflTransGen (StepV D) [] s

/-- Document ids `a`, `aa`, `aaa`, ... used in the listing-capacity
scenario (distinct by length, and never colliding with the global shard
name). -/
def aName (i : Nat) : String := ⟨List.replicate (i + 1) 'a'⟩

/-- The single enriched entry the scenario's upsert of text `"t"` for
document `aName i` produces. -/
def aEntry (i : Nat) : Entry := ⟨"t", ⟨some (aName i), some 0, false⟩⟩

/-- The per-document shard file of document `aName i` in the scenario. -/
def aPair (i : Nat) : String × VBlob :=
  (docShardName (aName i), VBlob.ok ⟨1, [bootstrapEntry, aEntry i]⟩)

/-- The contents of the per-document shard of `aName i` in the scenario:
the bootstrap placeholder followed by the upserted entry. -/
def aShard (i : Nat) : Shard := ⟨1, [bootstrapEntry, aEntry i]⟩

/-- The scenario itself: starting from the empty store, one upsert of the
text `"t"` for each of the documents `aName 0 .. aName (k-1)`, under an
embedding model of dimensionality 1. -/
def buildState : Nat → VStore
  | 0 => []
  | k + 1 => (upsert 1 0 (buildState k) (aName k) ["t"] none).1

end BookVec

namespace BookChunk

/-!
`create_faiss_index` delegates chunking to
`CharacterTextSplitter(chunk_size=1500, chunk_overlap=100)` from
`langchain_text_splitters` with its defaults: separator `"\n\n"` (taken
literally), `keep_separator=False`, `strip_whitespace=True` and
`len` as the length function.  `split_text` splits the text on the
separator, drops empty pieces, and re-merges whole pieces into chunks of
at most `chunk_size` characters, carrying at most `chunk_overlap`
characters of whole trailing pieces over into the next chunk.  The
functions below embed that library algorithm (`_split_text_with_regex`
on a literal separator, `_merge_splits`, `_join_docs`), since the
repository's chunking behaviour is exactly its behaviour. -/

/-- The splitter's separator (`"\n\n"` by default). -/
def sepString : String := "\n\n"

/-- Python's `str.strip()` over the underlying character list (equivalent
to `String.trim`, restated structurally so that it reduces): drop
whitespace from both ends. -/
def trimChars (cs : List Char) : List Char :=
  ((cs.dropWhile Char.isWhitespace).reverse.dropWhile Char.isWhitespace).reverse

/-- `str.strip()` on a string. -/
def strTrim (s : String) : String := ⟨trimChars s.data⟩

/-- Python's `text.split("\n\n")` — the `re.split` on the escaped default
separator done by `_split_text_with_regex` — over the character list:
scan left to right, cutting at each non-overlapping `"\n\n"`. -/
def splitNN : List Char → List Char → List (List Char)
  | [], acc => [acc.reverse]
  | '\n' :: '\n' :: rest, acc => acc.reverse :: splitNN rest []
  | c :: rest, acc => splitNN rest (c :: acc)

/-- `text.split("\n\n")` on strings. -/
def pySplit (text : String) : List String :=
  (splitNN text.data []).map (fun cs => ⟨cs⟩)

/-- `_join_docs`: join the accumulated pieces with the separator, strip
surrounding whitespace, and drop the chunk when it ends up empty. -/
def joinDocs (cur : List String) : Option String :=
  let t := strTrim (String.intercalate sepString cur)
  if t = "" then none else some t

/-- The popping loop of `_merge_splits`: drop leading pieces while the
kept total exceeds `chunk_overlap`, or while it is positive and the next
piece would still not fit into `chunk_size`.  (`total` is `0` whenever the
window is empty, so the loop never underruns the window.) -/
def popLoop (chunkSize chunkOverlap sepLen dl : Int) :
    List String → Int → List String × Int
  | [], total => ([], total)
  | c :: t, total =>
    if total > chunkOverlap ∨
        (total + dl + sepLen > chunkSize ∧ total > 0) then
      popLoop chunkSize chunkOverlap sepLen dl t
        (total - ((c.length : Int) + if t.length > 0 then sepLen else 0))
    else (c :: t, total)

/-- Flush step of `_merge_splits`: when the window is nonempty, emit the
joined chunk and shrink the window for the overlap. -/
def flushWindow (chunkSize chunkOverlap sepLen dl : Int)
    (docs cur : List String) (total : Int) :
    List String × List String × Int :=
  match cur with
  | [] => (docs, [], total)
  | _ :: _ =>
    let docs' := docs ++ (joinDocs cur).toList
    let pt := popLoop chunkSize chunkOverlap sepLen dl cur total
    (docs', pt.1, pt.2)

/-- The main loop of `_merge_splits` over the separator pieces. -/
def mergeLoop (chunkSize chunkOverlap sepLen : Int) :
    List String → List String → List String → Int → List String
  | [], docs, cur, _ => docs ++ (joinDocs cur).toList
  | d :: rest, docs, cur, total =>
    let dl : Int := (d.length : Int)
    let st :=
      if total + dl + (if cur.length > 0 then sepLen else 0) > chunkSize then
        flushWindow chunkSize chunkOverlap sepLen dl docs cur total
      else (docs, cur, total)
    let cur2 := st.2.1 ++ [d]
    let total2 := st.2.2 + dl + (if cur2.length > 1 then sepLen else 0)
    mergeLoop chunkSize chunkOverlap sepLen rest st.1 cur2 total2

/-- `CharacterTextSplitter(...).split_text`: split on the literal
separator, drop empty pieces, merge. -/
def splitText (chunkSize chunkOverlap : Nat) (text : String) : List String :=
  let pieces := (pySplit text).filter (fun s => s ≠ "")
  mergeLoop (chunkSize : Int) (chunkOverlap : Int) (sepString.length : Int)
    pieces [] [] 0

/-- The chunk list produced by `create_faiss_index` for its input texts:
each text split with `chunk_size=1500, chunk_overlap=100`, with the
single-space placeholder when nothing remains. -/
def createFaissIndexChunks (texts : List String) : List String :=
  let all := (texts.map (fun t => splitText 1500 100 t)).flatten
  if all = [] then [" "] else all

/-- The overlap property claimed of consecutive chunks: each chunk's last
`O` characters equal the next chunk's first `O` characters. -/
def consecutiveOverlap (O : Nat) (cs : List String) : Prop :=
  ∀ p ∈ cs.zip cs.tail, p.1.drop (p.1.length - O) = p.2.take O

instance (O : Nat) (cs : List String) : Decidable (consecutiveOverlap O cs) :=
  List.decidableBAll _ _

/-- Concatenating the chunks while removing the overlap: the first chunk
followed by every later chunk with its first `O` characters dropped. -/
def overlapConcat (O : Nat) : List String → String
  | [] => ""
  | c :: rest => c ++ String.join (rest.map (fun s => s.drop O))

end BookChunk

namespace BookSearch

open BookVec

/-!
`pages/3_Assistente.py` searches the global shard through
`global_vs.as_retriever(search_type="mmr", search_kwargs={"k": k,
"fetch_k": max(12, 2 * k), "lambda_mult": 0.5})`:
`get_relevant_documents` embeds the query, fetches up to `fetch_k`
nearest entries from the index, and MMR-selects `min(k, fetched)` of
them.  The similarity scores come from the opaque embedding function, so
the ranking is abstracted as a `select` reordering of the entry list
(any valid ranking is a permutation of the candidates); the result size
and the absence of any filtering of the bootstrap placeholder are
faithful to the library. -/

/-- MMR retrieval over a shard's entries: rank by the opaque scores
(`select`), fetch at most `fetchK`, select at most `k`. -/
def mmrRetrieve (select : List Entry → List Entry) (entries : List Entry)
    (k fetchK : Nat) : List Entry :=
  ((select entries).take fetchK).take k

/-- `global_retriever.get_relevant_documents` with the page's
configuration `k = k_global`, `fetch_k = max(12, 2 * k_global)`. -/
def globalRetrieverDocs (select : List Entry → List Entry)
    (entries : List Entry) (kGlobal : Nat) : List Entry :=
  mmrRetrieve select entries kGlobal (max 12 (2 * kGlobal))

end BookSearch

/-! ### Lemmas about the Drive folder model -/

namespace BookRepo

theorem findFile_append_of_isSome {s : RStore} {n : String} {i : Nat}
    (r : RStore) (h : findFile s n = some i) :
    findFile (s ++ r) n = some i := by
  induction s generalizing i with
  | nil => simp [findFile] at h
  | cons f t ih =>
    by_cases hf : f.name = n
    · simpa [findFile, hf] using h
    · simp only [findFile, hf, if_false, List.cons_append] at h ⊢
      cases ht : findFile t n with
      | none => simp [ht] at h
      | some j =>
        simp only [ht, Option.map_some'] at h
        simp [ih ht, ← h]

theorem findFile_spec {s : RStore} {n : String} {i : Nat}
    (h : findFile s n = some i) :
    ∃ f, s.get? i = some f ∧ f.name = n := by
  induction s generalizing i with
  | nil => simp [findFile] at h
  | cons f t ih =>
    by_cases hf : f.name = n
    · simp only [findFile, hf, if_true] at h
      cases h
      exact ⟨f, rfl, hf⟩
    · simp only [findFile, hf, if_false] at h
      cases ht : findFile t n with
      | none => simp [ht] at h
      | some j =>
        simp only [ht, Option.map_some'] at h
        cases h
        obtain ⟨g, hg, hgn⟩ := ih ht
        exact ⟨g, hg, hgn⟩

theorem findFile_lt_length {s : RStore} {n : String} {i : Nat}
    (h : findFile s n = some i) : i < s.length := by
  obtain ⟨f, hf, _⟩ := findFile_spec h
  by_contra hlen
  push_neg at hlen
  rw [List.get?_eq_none.mpr hlen] at hf
  cases hf

theorem length_updateFileBytes (s : RStore) (i : Nat) (b : Blob) :
    (updateFileBytes s i b).length = s.length := by
  induction s generalizing i with
  | nil => rfl
  | cons f t ih =>
    cases i with
    | zero => rfl
    | succ j => simpa [updateFileBytes] using ih j

theorem get?_updateFileBytes_self {s : RStore} {i : Nat} {f : DriveFile}
    (b : Blob) (h : s.get? i = some f) :
    (updateFileBytes s i b).get? i = some ⟨f.name, b⟩ := by
  induction s generalizing i with
  | nil => cases h
  | cons g t ih =>
    cases i with
    | zero =>
      cases h
      rfl
    | succ j =>
      simp only [List.get?] at h
      simpa [updateFileBytes] using ih h

theorem findFile_updateFileBytes {s : RStore} {n : String} {i : Nat}
    (b : Blob) (h : findFile s n = some i) :
    findFile (updateFileBytes s i b) n = some i := by
  induction s generalizing i with
  | nil => simp [findFile] at h
  | cons f t ih =>
    by_cases hf : f.name = n
    · simp only [findFile, hf, if_true] at h
      cases h
      simp [updateFileBytes, findFile, hf]
    · simp only [findFile, hf, if_false] at h
      cases ht : findFile t n with
      | none => simp [ht] at h
      | some j =>
        simp only [ht, Option.map_some'] at h
        cases h
        simp [updateFileBytes, findFile, hf, ih ht]

end BookRepo

namespace BookRepo

theorem getDoc_append {s : RStore} {doc_id : String} {m : Manifest}
    (r : RStore) (h : getDoc s doc_id = some m) :
    getDoc (s ++ r) doc_id = some m := by
  cases hf : findFile s (jsonName doc_id) with
  | none => simp [getDoc, hf] at h
  | some fid =>
    simp only [getDoc, hf] at h
    simp only [getDoc, findFile_append_of_isSome r hf,
      List.get?_append (findFile_lt_length hf)]
    exact h

theorem getDoc_update_manifest {s : RStore} {doc_id : String} {fid : Nat}
    {f : DriveFile} (mnew : Manifest)
    (hf : findFile s (jsonName doc_id) = some fid)
    (hg : s.get? fid = some f) :
    getDoc (updateFileBytes s fid (.manifest mnew)) doc_id = some mnew := by
  simp only [getDoc, findFile_updateFileBytes _ hf,
    get?_updateFileBytes_self _ hg]

end BookRepo

namespace BookRepo

/-- Claim C10: appending a version to an existing manifest preserves its
`id` and `created_at` and leaves every existing entry of `versions`
untouched: the post-state manifest is exactly the pre-state one with the
single new `{ts, text, meta}` record appended at the end. -/
theorem append_version_frame (s : RStore) (now : Nat) (doc_id text : String)
    (meta : Meta) (m : Manifest) (h : getDoc s doc_id = some m) :
    (appendVersion s now doc_id text meta).map (fun p => getDoc p.1 doc_id) =
      some (some { id := m.id, created_at := m.created_at,
                   versions := m.versions ++ [⟨now, text, meta⟩] }) := by
  cases hf : findFile s (jsonName doc_id) with
  | none => simp [getDoc, hf] at h
  | some fid =>
    simp only [getDoc, hf] at h
    cases hg : s.get? fid with
    | none => simp only [hg] at h; cases h
    | some f =>
      simp only [hg] at h
      cases hc : f.content with
      | txt t0 => simp only [hc] at h; cases h
      | manifest m0 =>
        simp only [hc, Option.some.injEq] at h
        subst h
        have hupd := getDoc_update_manifest
          { m0 with versions := m0.versions ++ [⟨now, text, meta⟩] } hf hg
        simp only [appendVersion, hf, hg, hc, writeVersionTxt, uploadBytes,
          Option.map_some']
        exact congrArg some (getDoc_append _ hupd)

/-- Witness for C10 at a concrete store. -/
theorem append_version_frame_witness :
    (appendVersion (saveDoc [] 0 "doc" "hi" {}).1 1 "doc" "bye" {}).map
        (fun p => getDoc p.1 "doc") =
      some (some { id := "doc", created_at := 0,
                   versions := [⟨0, "hi", {}⟩, ⟨1, "bye", {}⟩] }) :=
  append_version_frame (saveDoc [] 0 "doc" "hi" {}).1 1 "doc" "bye" {}
    { id := "doc", created_at := 0, versions := [⟨0, "hi", {}⟩] } (by decide)

/-- Claim C2, counterexample: `save_doc` on a `doc_id` whose manifest
already exists does not fail with `AlreadyExists` and does write a
manifest — afterwards the folder holds two blobs named `doc.json`. -/
theorem save_doc_writes_despite_existing_manifest :
    getDoc (saveDoc [] 0 "doc" "hi" {}).1 "doc" =
        some { id := "doc", created_at := 0, versions := [⟨0, "hi", {}⟩] } ∧
    (((saveDoc (saveDoc [] 0 "doc" "hi" {}).1 5 "doc" "bye" {}).1).filter
        (fun f => f.name = jsonName "doc")).length = 2 := by
  constructor
  · decide
  · decide

/-- Claim C2, amended: `save_doc` performs no existence check and never
raises `AlreadyExists`; on a `doc_id` whose manifest already exists it
leaves every pre-existing file unchanged (no merge) and uploads a fresh
manifest blob right after them (duplicating the name), while `get_doc`
still resolves to the pre-existing manifest. -/
theorem save_doc_appends_duplicate_blob (s : RStore) (now : Nat)
    (doc_id text : String) (meta : Meta) (m : Manifest)
    (h : getDoc s doc_id = some m) :
    ((saveDoc s now doc_id text meta).1).take s.length = s ∧
    ((saveDoc s now doc_id text meta).1).get? s.length =
      some ⟨jsonName doc_id, .manifest (savePayload now doc_id text meta)⟩ ∧
    getDoc (saveDoc s now doc_id text meta).1 doc_id = some m := by
  have hshape : ∃ r, (saveDoc s now doc_id text meta).1 =
      s ++ (⟨jsonName doc_id, .manifest (savePayload now doc_id text meta)⟩ :: r) := by
    by_cases ht : text = ""
    · exact ⟨[], by simp [saveDoc, uploadBytes, ht]⟩
    · exact ⟨[⟨versionTxtName doc_id (meta.source.getD "versao") 1, .txt text⟩],
        by simp [saveDoc, uploadBytes, writeVersionTxt, ht]⟩
  obtain ⟨r, hr⟩ := hshape
  rw [hr]
  refine ⟨List.take_left s _, ?_, getDoc_append _ h⟩
  rw [List.get?_append_right (le_refl s.length)]
  simp

/-- Witness for C2's amended statement at a concrete store. -/
theorem save_doc_appends_duplicate_blob_witness :
    ((saveDoc (saveDoc [] 0 "doc" "hi" {}).1 5 "doc" "bye" {}).1).take 2 =
        (saveDoc [] 0 "doc" "hi" {}).1 ∧
    ((saveDoc (saveDoc [] 0 "doc" "hi" {}).1 5 "doc" "bye" {}).1).get? 2 =
      some ⟨jsonName "doc", .manifest (savePayload 5 "doc" "bye" {})⟩ ∧
    getDoc (saveDoc (saveDoc [] 0 "doc" "hi" {}).1 5 "doc" "bye" {}).1 "doc" =
      some { id := "doc", created_at := 0, versions := [⟨0, "hi", {}⟩] } :=
  save_doc_appends_duplicate_blob (saveDoc [] 0 "doc" "hi" {}).1 5 "doc" "bye" {}
    { id := "doc", created_at := 0, versions := [⟨0, "hi", {}⟩] } (by decide)

/-- Claim C3, counterexample: `append_version` on a `doc_id` with no
manifest does not fail with `NotFound` and does write: starting from the
empty folder it succeeds and creates a manifest carrying the text as its
first version. -/
theorem append_version_succeeds_on_absent_manifest :
    (appendVersion [] 0 "doc" "hi" {}).map (fun p => getDoc p.1 "doc") =
      some (some { id := "doc", created_at := 0,
                   versions := [⟨0, "hi", {}⟩] }) := by
  decide

/-- Claim C3, amended: when no manifest blob exists for `doc_id`,
`append_version` does not raise `NotFound`; it itself falls back to
`save_doc`, creating the manifest with the given text as first version —
the caller does not have to perform the fallback. -/
theorem append_version_falls_back_to_save_doc (s : RStore) (now : Nat)
    (doc_id text : String) (meta : Meta)
    (h : findFile s (jsonName doc_id) = none) :
    appendVersion s now doc_id text meta =
      some (saveDoc s now doc_id text meta) := by
  simp only [appendVersion, h]

/-- Witness for C3's amended statement at a concrete store. -/
theorem append_version_falls_back_to_save_doc_witness :
    appendVersion [] 7 "doc" "hi" {} = some (saveDoc [] 7 "doc" "hi" {}) :=
  append_version_falls_back_to_save_doc [] 7 "doc" "hi" {} (by decide)

/-- Claim C1 (code bug evaluation): one `_save_and_index` call on a fresh
document (no manifest in `versoes/`) with nonempty text writes the first
version twice — `_ensure_doc_in_versoes_with` creates the manifest with
the text as v1 and the subsequent `append_version` appends the same text
again with the same meta — so the resulting manifest has two versions and
the version at position 2 carries `version_index = 1`, violating the
`version_index k = k` invariant. -/
theorem save_and_index_fresh_doc_double_writes_v1 :
    (getDoc (saveAndIndex [] 0 "doc" "hello" { source := some "manual-edit" })
        "doc").map
      (fun m => (m.versions.length, m.versions.map (fun v => v.meta.version_index)))
      = some (2, [some 1, some 1]) := by
  decide

end BookRepo

/-! ### Lemmas about the vecstore folder model -/

namespace BookVec

theorem lookup_putV_self (s : VStore) (n : String) (b : VBlob) :
    lookupV (putV s n b) n = some b := by
  induction s with
  | nil => simp [putV, lookupV]
  | cons p t ih =>
    by_cases hp : p.1 = n
    · simp [putV, lookupV, hp]
    · simp [putV, lookupV, hp, ih]

theorem lookup_putV_ne {m n : String} (s : VStore) (b : VBlob) (h : m ≠ n) :
    lookupV (putV s n b) m = lookupV s m := by
  have hnm : ¬(n = m) := fun hh => h hh.symm
  induction s with
  | nil => simp [putV, lookupV, hnm]
  | cons p t ih =>
    by_cases hp : p.1 = n
    · have hpm : ¬(p.1 = m) := by rw [hp]; exact hnm
      simp [putV, lookupV, hp, hnm, hpm]
    · by_cases hm : p.1 = m
      · simp [putV, lookupV, hp, hm, hnm, h]
      · simp [putV, lookupV, hp, hm, hnm, h, ih]

theorem mem_putV {p : String × VBlob} {s : VStore} {n : String} {b : VBlob}
    (h : p ∈ putV s n b) : p = (n, b) ∨ p ∈ s := by
  induction s with
  | nil => simpa [putV] using h
  | cons q t ih =>
    by_cases hq : q.1 = n
    · simp only [putV, hq, if_true, List.mem_cons] at h
      rcases h with h | h
      · exact Or.inl h
      · exact Or.inr (List.mem_cons_of_mem q h)
    · simp only [putV, hq, if_false, List.mem_cons] at h
      rcases h with h | h
      · exact Or.inr (h ▸ List.mem_cons_self q t)
      · rcases ih h with h | h
        · exact Or.inl h
        · exact Or.inr (List.mem_cons_of_mem q h)

theorem mem_names_putV {x n : String} {s : VStore} {b : VBlob}
    (h : x ∈ (putV s n b).map Prod.fst) : x = n ∨ x ∈ s.map Prod.fst := by
  rcases List.mem_map.mp h with ⟨p, hp, hx⟩
  rcases mem_putV hp with h | h
  · exact Or.inl (by rw [← hx, h])
  · exact Or.inr (List.mem_map.mpr ⟨p, h, hx⟩)

theorem nodup_names_putV {s : VStore} {n : String} {b : VBlob}
    (h : (s.map Prod.fst).Nodup) : ((putV s n b).map Prod.fst).Nodup := by
  induction s with
  | nil => simp [putV]
  | cons p t ih =>
    simp only [List.map_cons, List.nodup_cons] at h
    by_cases hp : p.1 = n
    · simp only [putV, hp, if_true, List.map_cons, List.nodup_cons]
      exact ⟨hp ▸ h.1, h.2⟩
    · simp only [putV, hp, if_false, List.map_cons, List.nodup_cons]
      refine ⟨fun hmem => ?_, ih h.2⟩
      rcases mem_names_putV hmem with hh | hh
      · exact hp hh
      · exact h.1 hh

theorem mem_of_lookup {s : VStore} {n : String} {b : VBlob}
    (h : lookupV s n = some b) : (n, b) ∈ s := by
  induction s with
  | nil => cases h
  | cons p t ih =>
    by_cases hp : p.1 = n
    · simp only [lookupV, hp, if_true, Option.some.injEq] at h
      subst h
      have : p = (n, p.2) := by rw [← hp]
      exact this ▸ List.mem_cons_self p t
    · simp only [lookupV, hp, if_false] at h
      exact List.mem_cons_of_mem p (ih h)

theorem lookup_of_mem_nodup {s : VStore} {n : String} {b : VBlob}
    (hnd : (s.map Prod.fst).Nodup) (h : (n, b) ∈ s) :
    lookupV s n = some b := by
  induction s with
  | nil => cases h
  | cons p t ih =>
    simp only [List.map_cons, List.nodup_cons] at hnd
    rcases List.mem_cons.mp h with h | h
    · subst h
      simp [lookupV]
    · have hp : p.1 ≠ n := by
        intro hp
        exact hnd.1 (hp ▸ List.mem_map.mpr ⟨(n, b), h, rfl⟩)
      simp only [lookupV, hp, if_false]
      exact ih hnd.2 h

theorem endsWithZip_docShardName (d : String) :
    endsWithZip (docShardName d) = true := by
  simp [endsWithZip, docShardName, String.data_append, List.isSuffixOf,
    List.isPrefixOf_iff_prefix, List.reverse_append]

end BookVec

namespace BookVec

theorem okShards_cons_corrupt (nm : String) (t : List (String × VBlob)) :
    okShards ((nm, VBlob.corrupt) :: t) = okShards t := by
  simp [okShards]

theorem okShards_cons_ok (nm : String) (sh : Shard)
    (t : List (String × VBlob)) :
    okShards ((nm, VBlob.ok sh) :: t) = sh :: okShards t := by
  simp [okShards]

theorem mergeAll_some {D : Nat} (m : Shard) (hm : m.dim = D)
    (l : List (String × VBlob)) (hdim : ∀ sh ∈ okShards l, sh.dim = D)
    (n : Nat) :
    mergeAll (some m) n l =
      some (some ⟨m.dim,
          m.entries ++ ((okShards l).map (fun sh => sh.entries)).flatten⟩,
        n + (okShards l).length) := by
  induction l generalizing m n with
  | nil => simp [mergeAll, okShards]
  | cons p t ih =>
    obtain ⟨nm, b⟩ := p
    cases b with
    | corrupt =>
      rw [okShards_cons_corrupt] at hdim ⊢
      simpa [mergeAll] using ih m hm hdim n
    | ok sh =>
      rw [okShards_cons_ok] at hdim ⊢
      have hsh : sh.dim = D := hdim sh (List.mem_cons_self _ _)
      have hdt : ∀ u ∈ okShards t, u.dim = D :=
        fun u hu => hdim u (List.mem_cons_of_mem _ hu)
      have hcond : sh.dim = m.dim := by rw [hsh, hm]
      simp only [mergeAll, hcond, if_true]
      rw [ih ⟨m.dim, m.entries ++ sh.entries⟩ hm hdt (n + 1)]
      simp [List.append_assoc]
      omega

theorem mergeAll_none {D : Nat} (l : List (String × VBlob))
    (hdim : ∀ sh ∈ okShards l, sh.dim = D) (n : Nat) :
    mergeAll none n l =
      some ((if okShards l = [] then none
        else some (⟨D, ((okShards l).map (fun sh => sh.entries)).flatten⟩ : Shard)),
        n + (okShards l).length) := by
  induction l generalizing n with
  | nil => simp [mergeAll, okShards]
  | cons p t ih =>
    obtain ⟨nm, b⟩ := p
    cases b with
    | corrupt =>
      rw [okShards_cons_corrupt] at hdim ⊢
      simpa [mergeAll] using ih hdim n
    | ok sh =>
      rw [okShards_cons_ok] at hdim ⊢
      have hsh : sh.dim = D := hdim sh (List.mem_cons_self _ _)
      have hdt : ∀ u ∈ okShards t, u.dim = D :=
        fun u hu => hdim u (List.mem_cons_of_mem _ hu)
      simp only [mergeAll]
      rw [mergeAll_some sh hsh t hdt (n + 1)]
      simp [hsh]
      omega

theorem rebuild_eq_of_dims {D : Nat} {s : VStore}
    (hdim : ∀ sh ∈ okShards (docZipFiles s), sh.dim = D) :
    rebuild D s =
      (putV s globalName (.ok
        (if okShards (docZipFiles s) = [] then emptyIndex D
         else ⟨D, ((okShards (docZipFiles s)).map (fun sh => sh.entries)).flatten⟩)),
       some (okShards (docZipFiles s)).length) := by
  by_cases hf : docZipFiles s = []
  · simp [rebuild, hf, okShards]
  · simp only [rebuild, hf, if_false]
    rw [mergeAll_none (docZipFiles s) hdim 0]
    by_cases hok : okShards (docZipFiles s) = []
    · simp [hok]
    · simp [hok]

end BookVec

namespace BookVec

theorem mem_okShards {sh : Shard} {l : List (String × VBlob)} :
    sh ∈ okShards l ↔ ∃ nm, (nm, VBlob.ok sh) ∈ l := by
  constructor
  · intro h
    rcases List.mem_filterMap.mp h with ⟨p, hp, he⟩
    obtain ⟨nm, b⟩ := p
    cases b with
    | ok u =>
      simp only [Option.some.injEq] at he
      exact ⟨nm, he ▸ hp⟩
    | corrupt => cases he
  · rintro ⟨nm, h⟩
    exact List.mem_filterMap.mpr ⟨(nm, VBlob.ok sh), h, rfl⟩

theorem okShards_length_of_all_ok {l : List (String × VBlob)}
    (h : ∀ p ∈ l, ∃ sh, p.2 = VBlob.ok sh) :
    (okShards l).length = l.length := by
  induction l with
  | nil => rfl
  | cons p t ih =>
    obtain ⟨sh, hsh⟩ := h p (List.mem_cons_self p t)
    obtain ⟨nm, b⟩ := p
    simp only at hsh
    subst hsh
    rw [okShards_cons_ok]
    simp only [List.length_cons]
    rw [ih (fun q hq => h q (List.mem_cons_of_mem _ hq))]

/-- Claim C5: `_load_or_create_index` returns a freshly bootstrapped empty
shard (`existed = false`) both when the blob is absent and when the stored
bytes fail to deserialize, never raising; and a subsequent upsert on a
name whose blob is corrupt succeeds (returns the added count) and
overwrites the corrupt blob with a well-formed shard holding the bootstrap
placeholder plus the new entries. -/
theorem load_or_create_degrades_and_upsert_overwrites
    (D now : Nat) (s : VStore) (name doc_id : String) (texts : List String)
    (metadatas : Option (List EMeta))
    (habs : lookupV s name = none ∨ lookupV s name = some VBlob.corrupt)
    (hcorr : lookupV s (docShardName doc_id) = some VBlob.corrupt)
    (hglob : ∀ sh, lookupV s globalName = some (VBlob.ok sh) → sh.dim = D)
    (hne : texts ≠ [])
    (hdng : docShardName doc_id ≠ globalName) :
    loadOrCreate D s name = (emptyIndex D, false) ∧
    (upsert D now s doc_id texts metadatas).2 = some texts.length ∧
    lookupV (upsert D now s doc_id texts metadatas).1 (docShardName doc_id) =
      some (VBlob.ok (addTexts (emptyIndex D) texts
        ((metasOrDefault texts metadatas).map (enrich doc_id now)))) := by
  refine ⟨?_, ?_⟩
  · rcases habs with h | h <;> simp [loadOrCreate, h]
  · have hG : ∀ b, lookupV (putV s (docShardName doc_id) b) globalName =
        lookupV s globalName :=
      fun b => lookup_putV_ne s b (Ne.symm hdng)
    cases hg : lookupV s globalName with
    | none =>
      constructor
      · simp [upsert, hne, loadOrCreate, hcorr, hG, hg, emptyIndex]
      · simp [upsert, hne, loadOrCreate, hcorr, hG, hg, emptyIndex,
          lookup_putV_ne _ _ hdng, lookup_putV_self]
    | some b =>
      cases b with
      | corrupt =>
        constructor
        · simp [upsert, hne, loadOrCreate, hcorr, hG, hg, emptyIndex]
        · simp [upsert, hne, loadOrCreate, hcorr, hG, hg, emptyIndex,
            lookup_putV_ne _ _ hdng, lookup_putV_self]
      | ok g =>
        have hgd : g.dim = D := hglob g hg
        constructor
        · simp [upsert, hne, loadOrCreate, hcorr, hG, hg, emptyIndex, hgd]
        · simp [upsert, hne, loadOrCreate, hcorr, hG, hg, emptyIndex, hgd,
            lookup_putV_ne _ _ hdng, lookup_putV_self]

/-- Witness for C5 at a concrete store holding one corrupt shard. -/
theorem load_or_create_degrades_witness :
    loadOrCreate 1 [(docShardName "d", VBlob.corrupt)] (docShardName "d") =
      (emptyIndex 1, false) ∧
    (upsert 1 0 [(docShardName "d", VBlob.corrupt)] "d" ["t"] none).2 = some 1 ∧
    lookupV (upsert 1 0 [(docShardName "d", VBlob.corrupt)] "d" ["t"] none).1
        (docShardName "d") =
      some (VBlob.ok (addTexts (emptyIndex 1) ["t"]
        ((metasOrDefault ["t"] none).map (enrich "d" 0)))) :=
  load_or_create_degrades_and_upsert_overwrites 1 0
    [(docShardName "d", VBlob.corrupt)] (docShardName "d") "d" ["t"] none
    (Or.inr (by decide)) (by decide) (fun sh h => Option.noConfusion h)
    (by decide) (by decide)

end BookVec

namespace BookVec

/-- Claim C6, counterexample: two per-document shards that both load
successfully but were produced with incompatible embedding
dimensionalities (2 and 3) make `rebuild_global_from_all_docs` fail as a
whole — the `try/except` wraps only the load, so the `merge_from`
exception escapes, nothing is persisted, and the one bad shard blocks the
rebuild of the rest. -/
theorem rebuild_aborts_on_merge_mismatch :
    (rebuild 2 [(docShardName "a", VBlob.ok ⟨2, [bootstrapEntry]⟩),
                (docShardName "b", VBlob.ok ⟨3, [bootstrapEntry]⟩)]).2 = none ∧
    (rebuild 2 [(docShardName "a", VBlob.ok ⟨2, [bootstrapEntry]⟩),
                (docShardName "b", VBlob.ok ⟨3, [bootstrapEntry]⟩)]).1 =
      [(docShardName "a", VBlob.ok ⟨2, [bootstrapEntry]⟩),
       (docShardName "b", VBlob.ok ⟨3, [bootstrapEntry]⟩)] := by
  constructor <;> decide

/-- Claim C6, amended: among the doc shards the rebuild lists — its
single `limit=1000` page (`docZipFiles`), i.e. at most the first 1000
files of the folder — those that fail to LOAD (corrupt blobs) are skipped
silently and excluded from the merged-sources count, and when no doc
shard is listed or none loads the rebuild still persists a bootstrap-only
empty global shard; this holds for every store whose listed loadable
shards share one embedding dimensionality — but a shard that loads and
then fails to MERGE (dimensionality mismatch) aborts the whole rebuild
(see the counterexample), since only the load is wrapped in
`try/except`. -/
theorem rebuild_skips_load_failures (D : Nat) (s : VStore)
    (hdim : ∀ sh ∈ okShards (docZipFiles s), sh.dim = D) :
    (rebuild D s).2 = some (okShards (docZipFiles s)).length ∧
    lookupV (rebuild D s).1 globalName =
      some (VBlob.ok
        (if okShards (docZipFiles s) = [] then emptyIndex D
         else ⟨D, ((okShards (docZipFiles s)).map (fun sh => sh.entries)).flatten⟩)) := by
  rw [rebuild_eq_of_dims hdim]
  exact ⟨rfl, lookup_putV_self s globalName _⟩

/-- Witness for C6's amended statement: one corrupt and one loadable
shard; the corrupt one is skipped, `sources = 1`, and the global shard is
persisted. -/
theorem rebuild_skips_load_failures_witness :
    (rebuild 1 [(docShardName "a", VBlob.corrupt),
                (docShardName "b", VBlob.ok ⟨1, [bootstrapEntry]⟩)]).2 = some 1 ∧
    lookupV (rebuild 1 [(docShardName "a", VBlob.corrupt),
                (docShardName "b", VBlob.ok ⟨1, [bootstrapEntry]⟩)]).1 globalName =
      some (VBlob.ok
        (if okShards (docZipFiles [(docShardName "a", VBlob.corrupt),
            (docShardName "b", VBlob.ok ⟨1, [bootstrapEntry]⟩)]) = []
         then emptyIndex 1
         else ⟨1, ((okShards (docZipFiles [(docShardName "a", VBlob.corrupt),
            (docShardName "b", VBlob.ok ⟨1, [bootstrapEntry]⟩)])).map
              (fun sh => sh.entries)).flatten⟩)) :=
  rebuild_skips_load_failures 1
    [(docShardName "a", VBlob.corrupt),
     (docShardName "b", VBlob.ok ⟨1, [bootstrapEntry]⟩)] (by decide)

/-- Claim C7, counterexample: two per-document shards that both load
successfully and have disjoint chunk sets, but of differing embedding
dimensionalities: `rebuild` produces no global shard at all (the merge
raises), instead of one whose entry count is the sum 2. -/
theorem rebuild_no_global_on_dim_mismatch :
    (rebuild 2 [(docShardName "a", VBlob.ok ⟨2, [⟨"x", {}⟩]⟩),
                (docShardName "b", VBlob.ok ⟨3, [⟨"y", {}⟩]⟩)]).2 = none ∧
    lookupV (rebuild 2 [(docShardName "a", VBlob.ok ⟨2, [⟨"x", {}⟩]⟩),
                (docShardName "b", VBlob.ok ⟨3, [⟨"y", {}⟩]⟩)]).1 globalName =
      none := by
  constructor <;> decide

/-- Claim C7, amended: over the N per-document shards the rebuild
actually lists — its single `limit=1000` page (`docZipFiles`), so N counts
at most the first 1000 files of the folder — when all of them load
successfully, share one embedding dimensionality, and contain pairwise
disjoint chunk sets, `rebuild` reports N merged sources and produces a
global shard whose entry count equals the sum of the N shards' entry
counts, plus exactly one bootstrap placeholder when N = 0 (and nothing
extra otherwise — "plus at most one"); unlisted shards past the cap
contribute nothing. -/
theorem rebuild_entry_count_is_sum (D : Nat) (s : VStore)
    (hall : ∀ p ∈ docZipFiles s, ∃ sh, p.2 = VBlob.ok sh ∧ sh.dim = D)
    (_hdisj : ∀ p ∈ docZipFiles s, ∀ q ∈ docZipFiles s, p.1 ≠ q.1 →
      ∀ ch ∈ (entriesOfBlob p.2).map Entry.text,
        ch ∉ (entriesOfBlob q.2).map Entry.text) :
    (rebuild D s).2 = some (docZipFiles s).length ∧
    ∃ g, lookupV (rebuild D s).1 globalName = some (VBlob.ok g) ∧
      g.entries.length =
        ((okShards (docZipFiles s)).map (fun sh => sh.entries.length)).sum +
          (if docZipFiles s = [] then 1 else 0) := by
  have hdim : ∀ sh ∈ okShards (docZipFiles s), sh.dim = D := by
    intro sh hsh
    rcases mem_okShards.mp hsh with ⟨nm, hmem⟩
    rcases hall (nm, VBlob.ok sh) hmem with ⟨u, hu, hud⟩
    simp only [VBlob.ok.injEq] at hu
    exact hu ▸ hud
  have hlen : (okShards (docZipFiles s)).length = (docZipFiles s).length :=
    okShards_length_of_all_ok (fun p hp => ⟨(hall p hp).choose, (hall p hp).choose_spec.1⟩)
  rw [rebuild_eq_of_dims hdim]
  refine ⟨by rw [hlen], _, lookup_putV_self s globalName _, ?_⟩
  by_cases hok : okShards (docZipFiles s) = []
  · have hfe : docZipFiles s = [] := by
      cases hfs : docZipFiles s with
      | nil => rfl
      | cons p t =>
        exfalso
        have := hlen
        rw [hok, hfs] at this
        simp at this
    simp [hok, hfe, okShards, emptyIndex]
  · have hfe : docZipFiles s ≠ [] := by
      intro hfs
      rw [hfs] at hok
      exact hok rfl
    simp only [hok, if_false, hfe]
    rw [List.length_flatten]
    simp only [List.map_map, Function.comp_def, Nat.add_zero]

end BookVec

namespace BookVec

/-- Witness for C7's amended statement: two loadable same-dimensionality
shards with disjoint chunk sets; the rebuilt global shard has exactly
1 + 1 = 2 entries. -/
theorem rebuild_entry_count_is_sum_witness :
    (rebuild 1 [(docShardName "a", VBlob.ok ⟨1, [⟨"x", {}⟩]⟩),
                (docShardName "b", VBlob.ok ⟨1, [⟨"y", {}⟩]⟩)]).2 = some 2 ∧
    ∃ g, lookupV (rebuild 1 [(docShardName "a", VBlob.ok ⟨1, [⟨"x", {}⟩]⟩),
                (docShardName "b", VBlob.ok ⟨1, [⟨"y", {}⟩]⟩)]).1 globalName =
        some (VBlob.ok g) ∧
      g.entries.length =
        ((okShards (docZipFiles [(docShardName "a", VBlob.ok ⟨1, [⟨"x", {}⟩]⟩),
            (docShardName "b", VBlob.ok ⟨1, [⟨"y", {}⟩]⟩)])).map
          (fun sh => sh.entries.length)).sum +
          (if docZipFiles [(docShardName "a", VBlob.ok ⟨1, [⟨"x", {}⟩]⟩),
              (docShardName "b", VBlob.ok ⟨1, [⟨"y", {}⟩]⟩)] = [] then 1 else 0) :=
  rebuild_entry_count_is_sum 1
    [(docShardName "a", VBlob.ok ⟨1, [⟨"x", {}⟩]⟩),
     (docShardName "b", VBlob.ok ⟨1, [⟨"y", {}⟩]⟩)]
    (by
      intro p hp
      rw [show docZipFiles [(docShardName "a", VBlob.ok ⟨1, [⟨"x", {}⟩]⟩),
            (docShardName "b", VBlob.ok ⟨1, [⟨"y", {}⟩]⟩)] =
          [(docShardName "a", VBlob.ok ⟨1, [⟨"x", {}⟩]⟩),
           (docShardName "b", VBlob.ok ⟨1, [⟨"y", {}⟩]⟩)] from by decide] at hp
      rcases List.mem_cons.mp hp with h | h
      · exact ⟨⟨1, [⟨"x", {}⟩]⟩, by rw [h], rfl⟩
      · rcases List.mem_cons.mp h with h | h
        · exact ⟨⟨1, [⟨"y", {}⟩]⟩, by rw [h], rfl⟩
        · cases h)
    (by decide)

end BookVec

namespace BookChunk

/-- Claim C8, counterexample: at `(max_chunk_chars, overlap) = (5, 2)` the
text `"ab\n\ncd"` (length 6 > 5) splits into `["ab", "cd"]`: the two
consecutive chunks do not overlap by 2 characters, and concatenating
while removing the overlap yields `"ab"`, not the original text — the
splitter cuts at `"\n\n"` separators (dropping them between chunks), not
at exact character offsets. -/
theorem chunk_exact_overlap_counterexample :
    ("ab\n\ncd".length > 5) ∧
    ¬(consecutiveOverlap 2 (splitText 5 2 "ab\n\ncd") ∧
      overlapConcat 2 (splitText 5 2 "ab\n\ncd") = "ab\n\ncd") := by
  constructor
  · decide
  · decide

/-- Claim C8, amended: the splitter underlying `create_faiss_index` is
separator-based, not exact-size: for every text longer than `N` with no
`"\n\n"` occurrence and no surrounding whitespace, `split_text` returns
the whole text as a single (oversized) chunk — so no `O`-character
overlap between consecutive chunks is ever produced, and
overlap-removing concatenation reconstructs the text only trivially;
exact `O`-overlap and reconstruction fail in general (see the
counterexample). -/
theorem splitText_single_chunk_when_no_separator
    (N O : Nat) (text : String)
    (hsep : pySplit text = [text])
    (htrim : strTrim text = text) (hne : text ≠ "") (_hlen : text.length > N) :
    splitText N O text = [text] ∧
    consecutiveOverlap O (splitText N O text) ∧
    overlapConcat O (splitText N O text) = text := by
  have hone : splitText N O text = [text] := by
    unfold splitText
    rw [hsep]
    rw [show ([text].filter (fun s => s ≠ "")) = [text] by simp [hne]]
    simp only [mergeLoop]
    rw [show (if ((0 : Int) + (text.length : Int) +
          (if ([] : List String).length > 0 then (sepString.length : Int) else 0)) >
          (N : Int) then
        flushWindow (N : Int) (O : Int) (sepString.length : Int)
          (text.length : Int) [] [] 0
      else ([], [], 0)) = (([] : List String), ([] : List String), (0 : Int)) by
      rw [show (if ([] : List String).length > 0 then (sepString.length : Int) else 0) = 0
        by norm_num]
      split <;> rfl]
    simp only [mergeLoop, List.nil_append]
    rw [show joinDocs [text] = some text by
      rw [show joinDocs [text] =
          (if strTrim text = "" then none else some (strTrim text)) from rfl]
      simp [htrim, hne]]
    rfl
  refine ⟨hone, ?_, ?_⟩
  · rw [hone]
    intro p hp
    simp at hp
  · rw [hone]
    show text ++ String.join [] = text
    exact String.append_empty text

/-- Witness for C8's amended statement: a separator-free text of length
5 > 3 is returned as one chunk. -/
theorem splitText_single_chunk_witness :
    splitText 3 1 "hello" = ["hello"] ∧
    consecutiveOverlap 1 (splitText 3 1 "hello") ∧
    overlapConcat 1 (splitText 3 1 "hello") = "hello" :=
  splitText_single_chunk_when_no_separator 3 1 "hello"
    (by decide) (by decide) (by decide) (by decide)

end BookChunk

namespace BookSearch

open BookVec

/-- Claim C9, counterexample: retrieval over a shard holding only the
bootstrap placeholder with `k = 2` (the smallest Top-K the page's slider
allows for the global index) returns the placeholder itself — a
one-element list, not the empty list — since no filtering excludes it;
shown at the identity ranking (for a one-entry index every valid ranking
gives the same candidates). -/
theorem bootstrap_only_search_returns_bootstrap :
    globalRetrieverDocs id [bootstrapEntry] 2 ≠ [] ∧
    globalRetrieverDocs id [bootstrapEntry] 2 = [bootstrapEntry] := by
  constructor
  · decide
  · decide

/-- Claim C9, amended: with the page's retriever configuration, `k = 0`
yields the empty list for every shard and every ranking, without error;
but a shard containing only the bootstrap placeholder yields, for every
similarity ranking and every `k ≥ 1`, the one-element list holding the
bootstrap placeholder — not the empty list — because the code applies no
bootstrap filtering. -/
theorem retriever_k0_empty_and_bootstrap_passthrough
    (select : List Entry → List Entry)
    (hperm : ∀ l, (select l).Perm l) (entries : List Entry) (k : Nat)
    (hk : 1 ≤ k) :
    globalRetrieverDocs select entries 0 = [] ∧
    globalRetrieverDocs select [bootstrapEntry] k = [bootstrapEntry] := by
  constructor
  · simp [globalRetrieverDocs, mmrRetrieve]
  · have hsel : select [bootstrapEntry] = [bootstrapEntry] :=
      List.perm_singleton.mp (hperm [bootstrapEntry])
    rw [globalRetrieverDocs, mmrRetrieve, hsel]
    rw [List.take_of_length_le
      (le_trans (by norm_num) (le_max_left 12 (2 * k)))]
    exact List.take_of_length_le (by simpa using hk)

/-- Witness for C9's amended statement at the identity ranking and the
page's minimum `k`. -/
theorem retriever_k0_empty_witness :
    globalRetrieverDocs id [⟨"x", {}⟩] 0 = [] ∧
    globalRetrieverDocs id [bootstrapEntry] 2 = [bootstrapEntry] :=
  retriever_k0_empty_and_bootstrap_passthrough id (fun l => List.Perm.refl l)
    [⟨"x", {}⟩] 2 (by decide)

end BookSearch

namespace BookVec

theorem invV_nil (D : Nat) : InvV D [] := by
  refine ⟨by simp, by simp, by simp, fun _ => rfl, ?_⟩
  intro n sh _ hl
  cases hl

theorem blob_ok_of_lookup {D : Nat} {s : VStore} {n : String} {b : VBlob}
    (h : InvV D s) (hl : lookupV s n = some b) :
    ∃ sh, b = VBlob.ok sh ∧ sh.dim = D ∧ bootstrapEntry ∈ sh.entries :=
  h.2.2.1 (n, b) (mem_of_lookup hl)

theorem name_shape_of_lookup {D : Nat} {s : VStore} {n : String} {b : VBlob}
    (h : InvV D s) (hl : lookupV s n = some b) :
    (∃ d, n = docShardName d) ∨ n = globalName :=
  h.2.1 (n, b) (mem_of_lookup hl)

theorem globalEntriesOf_put (s : VStore) (g : Shard) :
    globalEntriesOf (putV s globalName (VBlob.ok g)) = g.entries := by
  simp [globalEntriesOf, lookup_putV_self]

theorem invV_after_two_puts (D : Nat) (s : VStore) (dn : String)
    (dE gE : List Entry) (h : InvV D s)
    (hdn : ∃ d, dn = docShardName d)
    (hbd : bootstrapEntry ∈ dE) (hbg : bootstrapEntry ∈ gE)
    (hdg : ∀ e ∈ dE, e ∈ gE)
    (hog : ∀ e ∈ globalEntriesOf s, e ∈ gE) :
    InvV D (putV (putV s dn (VBlob.ok ⟨D, dE⟩)) globalName (VBlob.ok ⟨D, gE⟩)) := by
  refine ⟨?_, ?_, ?_, ?_, ?_⟩
  · exact nodup_names_putV (nodup_names_putV h.1)
  · intro p hp
    rcases mem_putV hp with rfl | hp1
    · exact Or.inr rfl
    · rcases mem_putV hp1 with rfl | hp2
      · exact Or.inl hdn
      · exact h.2.1 p hp2
  · intro p hp
    rcases mem_putV hp with rfl | hp1
    · exact ⟨⟨D, gE⟩, rfl, rfl, hbg⟩
    · rcases mem_putV hp1 with rfl | hp2
      · exact ⟨⟨D, dE⟩, rfl, rfl, hbd⟩
      · exact h.2.2.1 p hp2
  · intro habs
    rw [lookup_putV_self] at habs
    cases habs
  · intro n sh hn hl e he
    rw [globalEntriesOf_put]
    rw [lookup_putV_ne _ _ hn] at hl
    by_cases hnd : n = dn
    · subst hnd
      rw [lookup_putV_self] at hl
      injection hl with hl
      injection hl with hl
      exact hdg e (by rw [← show Shard.mk D dE = sh from hl] at he; exact he)
    · rw [lookup_putV_ne _ _ hnd] at hl
      exact hog e (h.2.2.2.2 n sh hn hl e he)

theorem invV_put_global (D : Nat) (s : VStore) (gE : List Entry)
    (h : InvV D s) (hbg : bootstrapEntry ∈ gE)
    (hsub : ∀ n sh, n ≠ globalName → lookupV s n = some (VBlob.ok sh) →
      ∀ e ∈ sh.entries, e ∈ gE) :
    InvV D (putV s globalName (VBlob.ok ⟨D, gE⟩)) := by
  refine ⟨nodup_names_putV h.1, ?_, ?_, ?_, ?_⟩
  · intro p hp
    rcases mem_putV hp with rfl | hp1
    · exact Or.inr rfl
    · exact h.2.1 p hp1
  · intro p hp
    rcases mem_putV hp with rfl | hp1
    · exact ⟨⟨D, gE⟩, rfl, rfl, hbg⟩
    · exact h.2.2.1 p hp1
  · intro habs
    rw [lookup_putV_self] at habs
    cases habs
  · intro n sh hn hl e he
    rw [globalEntriesOf_put]
    rw [lookup_putV_ne _ _ hn] at hl
    exact hsub n sh hn hl e he

end BookVec

namespace BookVec

theorem upsert_unfold (D now : Nat) (s : VStore) (doc_id : String)
    (texts : List String) (metadatas : Option (List EMeta))
    (hts : ¬texts = [])
    (vsDoc : Shard)
    (hvd : (loadOrCreate D s (docShardName doc_id)).1 = vsDoc)
    (hd : vsDoc.dim = D)
    (vsG : Shard)
    (hvg : (loadOrCreate D (putV s (docShardName doc_id)
        (VBlob.ok (addTexts vsDoc texts
          ((metasOrDefault texts metadatas).map (enrich doc_id now)))))
      globalName).1 = vsG)
    (hg : vsG.dim = D) :
    upsert D now s doc_id texts metadatas =
      (putV (putV s (docShardName doc_id)
          (VBlob.ok (addTexts vsDoc texts
            ((metasOrDefault texts metadatas).map (enrich doc_id now)))))
        globalName
        (VBlob.ok (addTexts vsG texts
          ((metasOrDefault texts metadatas).map (enrich doc_id now)))),
       some texts.length) := by
  simp only [upsert, hts, if_false, hvd, hd, if_true, hvg, hg]

end BookVec

namespace BookVec

theorem invV_upsert (D now : Nat) (s : VStore) (doc_id : String)
    (texts : List String) (metadatas : Option (List EMeta))
    (h : InvV D s) : InvV D (upsert D now s doc_id texts metadatas).1 := by
  by_cases hts : texts = []
  · simpa [upsert, hts] using h
  · set enr := (metasOrDefault texts metadatas).map (enrich doc_id now) with henr
    set E := (texts.zip enr).map (fun p => (⟨p.1, p.2⟩ : Entry)) with hEdef
    have hfin : ∀ (vsDoc vsG : Shard),
        (loadOrCreate D s (docShardName doc_id)).1 = vsDoc →
        vsDoc.dim = D →
        (loadOrCreate D (putV s (docShardName doc_id)
            (VBlob.ok (addTexts vsDoc texts enr))) globalName).1 = vsG →
        vsG.dim = D →
        bootstrapEntry ∈ vsDoc.entries →
        bootstrapEntry ∈ vsG.entries →
        (∀ e ∈ vsDoc.entries, e ∈ vsG.entries) →
        (∀ e ∈ globalEntriesOf s, e ∈ vsG.entries ++ E) →
        InvV D (upsert D now s doc_id texts metadatas).1 := by
      intro vsDoc vsG hvd hd hvg hg hbd hbg hsub hog
      rw [upsert_unfold D now s doc_id texts metadatas hts vsDoc hvd hd vsG hvg hg]
      have had : addTexts vsDoc texts enr = ⟨D, vsDoc.entries ++ E⟩ := by
        rw [show addTexts vsDoc texts enr =
          (⟨vsDoc.dim, vsDoc.entries ++ E⟩ : Shard) from rfl, hd]
      have hag : addTexts vsG texts enr = ⟨D, vsG.entries ++ E⟩ := by
        rw [show addTexts vsG texts enr =
          (⟨vsG.dim, vsG.entries ++ E⟩ : Shard) from rfl, hg]
      rw [had, hag]
      exact invV_after_two_puts D s _ _ _ h ⟨doc_id, rfl⟩
        (List.mem_append_left _ hbd) (List.mem_append_left _ hbg)
        (fun e he => by
          rcases List.mem_append.mp he with h1 | h1
          exacts [List.mem_append_left _ (hsub e h1), List.mem_append_right _ h1])
        hog
    by_cases hgn : docShardName doc_id = globalName
    · cases hld : lookupV s (docShardName doc_id) with
      | none =>
        refine hfin (emptyIndex D) (addTexts (emptyIndex D) texts enr)
          ?_ rfl ?_ rfl ?_ ?_ ?_ ?_
        · simp [loadOrCreate, hld]
        · have hlk : lookupV (putV s (docShardName doc_id)
              (VBlob.ok (addTexts (emptyIndex D) texts enr))) globalName =
              some (VBlob.ok (addTexts (emptyIndex D) texts enr)) := by
            rw [← hgn]
            exact lookup_putV_self _ _ _
          simp [loadOrCreate, hlk]
        · simp [emptyIndex]
        · exact List.mem_append_left _ (by simp [emptyIndex])
        · intro e he
          exact List.mem_append_left _ he
        · intro e he
          have hge : globalEntriesOf s = [] := by
            simp [globalEntriesOf, ← hgn, hld]
          rw [hge] at he
          cases he
      | some b =>
        obtain ⟨shd, rfl, hdim, hboot⟩ := blob_ok_of_lookup h hld
        refine hfin shd (addTexts shd texts enr) ?_ hdim ?_ hdim hboot ?_ ?_ ?_
        · simp [loadOrCreate, hld]
        · have hlk : lookupV (putV s (docShardName doc_id)
              (VBlob.ok (addTexts shd texts enr))) globalName =
              some (VBlob.ok (addTexts shd texts enr)) := by
            rw [← hgn]
            exact lookup_putV_self _ _ _
          simp [loadOrCreate, hlk]
        · exact List.mem_append_left _ hboot
        · intro e he
          exact List.mem_append_left _ he
        · intro e he
          have hge : globalEntriesOf s = shd.entries := by
            simp [globalEntriesOf, ← hgn, hld]
          rw [hge] at he
          exact List.mem_append_left _ (List.mem_append_left _ he)
    · have hgn' : globalName ≠ docShardName doc_id := fun hh => hgn hh.symm
      cases hlg : lookupV s globalName with
      | none =>
        have hnil : s = [] := h.2.2.2.1 hlg
        subst hnil
        refine hfin (emptyIndex D) (emptyIndex D) ?_ rfl ?_ rfl ?_ ?_ ?_ ?_
        · simp [loadOrCreate, lookupV]
        · have hlk : lookupV (putV ([] : VStore) (docShardName doc_id)
              (VBlob.ok (addTexts (emptyIndex D) texts enr))) globalName = none := by
            rw [lookup_putV_ne _ _ hgn']
            rfl
          simp [loadOrCreate, hlk]
        · simp [emptyIndex]
        · simp [emptyIndex]
        · intro e he
          exact he
        · intro e he
          simp [globalEntriesOf, lookupV] at he
      | some bg =>
        obtain ⟨g, rfl, hgdim, hgboot⟩ := blob_ok_of_lookup h hlg
        have hge : globalEntriesOf s = g.entries := by
          simp [globalEntriesOf, hlg]
        cases hld : lookupV s (docShardName doc_id) with
        | none =>
          refine hfin (emptyIndex D) g ?_ rfl ?_ hgdim ?_ hgboot ?_ ?_
          · simp [loadOrCreate, hld]
          · have hlk : lookupV (putV s (docShardName doc_id)
                (VBlob.ok (addTexts (emptyIndex D) texts enr))) globalName =
                some (VBlob.ok g) := by
              rw [lookup_putV_ne _ _ hgn']
              exact hlg
            simp [loadOrCreate, hlk]
          · simp [emptyIndex]
          · intro e he
            simp [emptyIndex] at he
            rw [he]
            exact hgboot
          · intro e he
            rw [hge] at he
            exact List.mem_append_left _ he
        | some b =>
          obtain ⟨shd, rfl, hdim, hboot⟩ := blob_ok_of_lookup h hld
          refine hfin shd g ?_ hdim ?_ hgdim hboot hgboot ?_ ?_
          · simp [loadOrCreate, hld]
          · have hlk : lookupV (putV s (docShardName doc_id)
                (VBlob.ok (addTexts shd texts enr))) globalName =
                some (VBlob.ok g) := by
              rw [lookup_putV_ne _ _ hgn']
              exact hlg
            simp [loadOrCreate, hlk]
          · intro e he
            have hsup := h.2.2.2.2 (docShardName doc_id) shd hgn hld e he
            rw [hge] at hsup
            exact hsup
          · intro e he
            rw [hge] at he
            exact List.mem_append_left _ he

end BookVec

namespace BookVec

theorem invV_rebuild (D : Nat) (s : VStore) (h : InvV D s)
    (hlen : s.length ≤ 1000) : InvV D (rebuild D s).1 := by
  have htake : s.take 1000 = s := List.take_of_length_le hlen
  have hdim : ∀ sh ∈ okShards (docZipFiles s), sh.dim = D := by
    intro sh hsh
    rcases mem_okShards.mp hsh with ⟨nm, hmem⟩
    obtain ⟨u, hu, hud, _⟩ :=
      h.2.2.1 _ (List.take_subset 1000 s (List.mem_filter.mp hmem).1)
    injection hu with hu
    rw [hu]
    exact hud
  have hshard_boot : ∀ sh ∈ okShards (docZipFiles s),
      bootstrapEntry ∈ sh.entries := by
    intro sh hsh
    rcases mem_okShards.mp hsh with ⟨nm, hmem⟩
    obtain ⟨u, hu, _, hub⟩ :=
      h.2.2.1 _ (List.take_subset 1000 s (List.mem_filter.mp hmem).1)
    injection hu with hu
    rw [hu]
    exact hub
  have hmemDoc : ∀ n sh, n ≠ globalName → lookupV s n = some (VBlob.ok sh) →
      sh ∈ okShards (docZipFiles s) := by
    intro n sh hn hl
    have hmem := mem_of_lookup hl
    rcases h.2.1 _ hmem with ⟨d, hd⟩ | hd
    · refine mem_okShards.mpr
        ⟨n, List.mem_filter.mpr ⟨htake.symm ▸ hmem, ?_⟩⟩
      rw [Bool.and_eq_true]
      exact ⟨by rw [hd]; exact endsWithZip_docShardName d, decide_eq_true hn⟩
    · exact absurd hd hn
  rw [rebuild_eq_of_dims hdim]
  by_cases hok : okShards (docZipFiles s) = []
  · rw [if_pos hok]
    refine invV_put_global D s [bootstrapEntry] h (List.mem_singleton_self _) ?_
    intro n sh hn hl e he
    have := hmemDoc n sh hn hl
    rw [hok] at this
    cases this
  · rw [if_neg hok]
    refine invV_put_global D s
      ((okShards (docZipFiles s)).map (fun sh => sh.entries)).flatten h ?_ ?_
    · obtain ⟨sh0, t, hst⟩ : ∃ sh0 t, okShards (docZipFiles s) = sh0 :: t := by
        cases hos : okShards (docZipFiles s) with
        | nil => exact absurd hos hok
        | cons a b => exact ⟨a, b, rfl⟩
      refine List.mem_flatten.mpr ⟨sh0.entries, ?_, ?_⟩
      · exact List.mem_map.mpr ⟨sh0, by rw [hst]; exact List.mem_cons_self _ _, rfl⟩
      · exact hshard_boot sh0 (by rw [hst]; exact List.mem_cons_self _ _)
    · intro n sh hn hl e he
      exact List.mem_flatten.mpr
        ⟨sh.entries, List.mem_map.mpr ⟨sh, hmemDoc n sh hn hl, rfl⟩, he⟩

theorem length_le_putV (s : VStore) (n : String) (b : VBlob) :
    s.length ≤ (putV s n b).length := by
  induction s with
  | nil => simp [putV]
  | cons p t ih =>
    by_cases hp : p.1 = n
    · simp [putV, hp]
    · simpa [putV, hp] using ih

theorem length_le_upsert (D now : Nat) (s : VStore) (doc_id : String)
    (texts : List String) (metadatas : Option (List EMeta)) :
    s.length ≤ (upsert D now s doc_id texts metadatas).1.length := by
  unfold upsert
  by_cases hts : texts = []
  · simp [hts]
  · simp only [hts, if_false]
    split
    · split
      · exact le_trans (length_le_putV s _ _) (length_le_putV _ _ _)
      · exact length_le_putV s _ _
    · exact le_refl _

theorem length_le_rebuild (D : Nat) (s : VStore) :
    s.length ≤ (rebuild D s).1.length := by
  simp only [rebuild]
  split
  · exact length_le_putV s _ _
  · split
    · exact le_refl _
    · exact length_le_putV s _ _

theorem stepV_length_le {D : Nat} {s t : VStore} (h : StepV D s t) :
    s.length ≤ t.length := by
  cases h with
  | upsert_step now doc_id texts metadatas =>
    exact length_le_upsert D now _ doc_id texts metadatas
  | rebuild_step => exact length_le_rebuild D _

theorem invV_of_reachable {D : Nat} {s : VStore} (h : ReachableV D s) :
    s.length ≤ 1000 → InvV D s := by
  induction h with
  | refl => exact fun _ => invV_nil D
  | tail _ hstep ih =>
    intro hcap
    have hb := le_trans (stepV_length_le hstep) hcap
    have hInvB := ih hb
    cases hstep with
    | upsert_step now doc_id texts metadatas =>
      exact invV_upsert D now _ doc_id texts metadatas hInvB
    | rebuild_step => exact invV_rebuild D _ hInvB hb

/-- Claim C4, amended: in every blob-store state reachable from the empty
store by the shard manager's operations (upsert and global rebuild, with
load-or-create's corruption-degrades-to-empty policy, under one fixed
embedding model) whose folder holds at most 1000 files — so that the
rebuild's single capped listing covers the whole folder — the global
shard's entry set contains, by content, every entry of every
per-document shard.  Beyond the cap the invariant fails at reachable
states (see the counterexample): a rebuild merges only the listed page
and drops the unlisted per-document shards' entries from the global
shard.  (The store only ever grows, so bounding the final state bounds
every state along the way.) -/
theorem global_shard_superset_of_reachable (D : Nat) (s : VStore)
    (h : ReachableV D s) (hcap : s.length ≤ 1000) (n : String) (sh : Shard)
    (e : Entry) (hn : n ≠ globalName)
    (hl : lookupV s n = some (VBlob.ok sh))
    (he : e ∈ sh.entries) : e ∈ globalEntriesOf s :=
  (invV_of_reachable h hcap).2.2.2.2 n sh hn hl e he

/-- Witness for C4's amended statement at the state reached by one
concrete upsert. -/
theorem global_shard_superset_witness :
    (⟨"t", ⟨some "d", some 0, false⟩⟩ : Entry) ∈
      globalEntriesOf (upsert 1 0 [] "d" ["t"] none).1 :=
  global_shard_superset_of_reachable 1 (upsert 1 0 [] "d" ["t"] none).1
    (Relation.ReflTransGen.single (StepV.upsert_step [] 0 "d" ["t"] none))
    (by decide)
    (docShardName "d")
    ⟨1, [bootstrapEntry, ⟨"t", ⟨some "d", some 0, false⟩⟩]⟩
    ⟨"t", ⟨some "d", some 0, false⟩⟩
    (by decide) (by decide) (by decide)

end BookVec

namespace BookVec

theorem lookupV_cons_ne {p : String × VBlob} {t : VStore} {n : String}
    (h : p.1 ≠ n) : lookupV (p :: t) n = lookupV t n := by
  simp [lookupV, h]

theorem putV_cons_ne {p : String × VBlob} {t : VStore} {n : String}
    {b : VBlob} (h : p.1 ≠ n) : putV (p :: t) n b = p :: putV t n b := by
  simp [putV, h]

theorem lookupV_eq_none_of_forall_ne {l : VStore} {n : String}
    (h : ∀ p ∈ l, p.1 ≠ n) : lookupV l n = none := by
  induction l with
  | nil => rfl
  | cons p t ih =>
    rw [lookupV_cons_ne (h p (List.mem_cons_self p t))]
    exact ih (fun q hq => h q (List.mem_cons_of_mem p hq))

theorem putV_eq_append_of_forall_ne {l : VStore} {n : String} {b : VBlob}
    (h : ∀ p ∈ l, p.1 ≠ n) : putV l n b = l ++ [(n, b)] := by
  induction l with
  | nil => rfl
  | cons p t ih =>
    rw [putV_cons_ne (h p (List.mem_cons_self p t))]
    rw [ih (fun q hq => h q (List.mem_cons_of_mem p hq))]
    rfl

theorem aName_data (i : Nat) : (aName i).data = List.replicate (i + 1) 'a' :=
  rfl

theorem docShardName_aName_data (i : Nat) :
    (docShardName (aName i)).data =
      List.replicate (i + 1) 'a' ++ (".faiss.zip").data := by
  rw [show docShardName (aName i) = aName i ++ ".faiss.zip" from rfl,
    String.data_append, aName_data]

theorem docShardName_aName_ne {i j : Nat} (hij : i ≠ j) :
    docShardName (aName i) ≠ docShardName (aName j) := by
  intro h
  have hd := congrArg String.data h
  rw [docShardName_aName_data, docShardName_aName_data] at hd
  have hlen := congrArg List.length hd
  simp only [List.length_append, List.length_replicate] at hlen
  omega

theorem docShardName_aName_ne_global (i : Nat) :
    docShardName (aName i) ≠ globalName := by
  intro h
  have hd := congrArg String.data h
  rw [docShardName_aName_data, List.replicate_succ, List.cons_append] at hd
  rw [show globalName.data = '_' :: ("global.faiss.zip").data from rfl] at hd
  injection hd with h1 _
  exact absurd h1 (by decide)

theorem lookupV_map_aPair_ne {l : List Nat} {j : Nat}
    (h : ∀ i ∈ l, i ≠ j) :
    lookupV (l.map aPair) (docShardName (aName j)) = none := by
  apply lookupV_eq_none_of_forall_ne
  intro p hp
  rcases List.mem_map.mp hp with ⟨i, hi, rfl⟩
  exact docShardName_aName_ne (h i hi)

end BookVec

namespace BookVec

theorem buildState_char : ∀ k, 1 ≤ k →
    buildState k =
      aPair 0 ::
        (globalName, VBlob.ok ⟨1, bootstrapEntry :: (List.range k).map aEntry⟩) ::
        (List.range' 1 (k - 1)).map aPair := by
  intro k
  induction k with
  | zero => omega
  | succ n ih =>
    intro _
    by_cases hn : n = 0
    · subst hn
      decide
    · have hn1 : 1 ≤ n := Nat.one_le_iff_ne_zero.mpr hn
      have hchar := ih hn1
      show (upsert 1 0 (buildState n) (aName n) ["t"] none).1 = _
      rw [hchar]
      have hne0 : (aPair 0).1 ≠ docShardName (aName n) :=
        docShardName_aName_ne (by omega)
      have hgne : (globalName, VBlob.ok
          (⟨1, bootstrapEntry :: (List.range n).map aEntry⟩ : Shard)).1 ≠
          docShardName (aName n) :=
        (docShardName_aName_ne_global n).symm
      have htailne : ∀ p ∈ (List.range' 1 (n - 1)).map aPair,
          p.1 ≠ docShardName (aName n) := by
        intro p hp
        rcases List.mem_map.mp hp with ⟨i, hi, rfl⟩
        have := List.mem_range'_1.mp hi
        exact docShardName_aName_ne (by omega)
      have hlookdoc : lookupV
          (aPair 0 ::
            (globalName, VBlob.ok ⟨1, bootstrapEntry :: (List.range n).map aEntry⟩) ::
            (List.range' 1 (n - 1)).map aPair)
          (docShardName (aName n)) = none := by
        rw [lookupV_cons_ne hne0, lookupV_cons_ne hgne]
        exact lookupV_eq_none_of_forall_ne htailne
      have hvd : (loadOrCreate 1
          (aPair 0 ::
            (globalName, VBlob.ok ⟨1, bootstrapEntry :: (List.range n).map aEntry⟩) ::
            (List.range' 1 (n - 1)).map aPair)
          (docShardName (aName n))).1 = emptyIndex 1 := by
        simp [loadOrCreate, hlookdoc]
      have hputdoc : putV
          (aPair 0 ::
            (globalName, VBlob.ok ⟨1, bootstrapEntry :: (List.range n).map aEntry⟩) ::
            (List.range' 1 (n - 1)).map aPair)
          (docShardName (aName n))
          (VBlob.ok (addTexts (emptyIndex 1) ["t"]
            ((metasOrDefault ["t"] none).map (enrich (aName n) 0)))) =
          aPair 0 ::
            (globalName, VBlob.ok ⟨1, bootstrapEntry :: (List.range n).map aEntry⟩) ::
            ((List.range' 1 (n - 1)).map aPair ++
              [(docShardName (aName n),
                VBlob.ok (addTexts (emptyIndex 1) ["t"]
                  ((metasOrDefault ["t"] none).map (enrich (aName n) 0))))]) := by
        rw [putV_cons_ne hne0, putV_cons_ne hgne,
          putV_eq_append_of_forall_ne htailne]
      have hlookglob : lookupV
          (aPair 0 ::
            (globalName, VBlob.ok ⟨1, bootstrapEntry :: (List.range n).map aEntry⟩) ::
            ((List.range' 1 (n - 1)).map aPair ++
              [(docShardName (aName n),
                VBlob.ok (addTexts (emptyIndex 1) ["t"]
                  ((metasOrDefault ["t"] none).map (enrich (aName n) 0))))]))
          globalName =
          some (VBlob.ok ⟨1, bootstrapEntry :: (List.range n).map aEntry⟩) := by
        rw [lookupV_cons_ne (docShardName_aName_ne_global 0)]
        simp [lookupV]
      have hvg : (loadOrCreate 1
          (putV (aPair 0 ::
              (globalName, VBlob.ok ⟨1, bootstrapEntry :: (List.range n).map aEntry⟩) ::
              (List.range' 1 (n - 1)).map aPair)
            (docShardName (aName n))
            (VBlob.ok (addTexts (emptyIndex 1) ["t"]
              ((metasOrDefault ["t"] none).map (enrich (aName n) 0)))))
          globalName).1 = ⟨1, bootstrapEntry :: (List.range n).map aEntry⟩ := by
        rw [hputdoc]
        simp [loadOrCreate, hlookglob]
      rw [upsert_unfold 1 0 _ (aName n) ["t"] none (by simp) (emptyIndex 1)
        hvd rfl ⟨1, bootstrapEntry :: (List.range n).map aEntry⟩ hvg rfl]
      rw [hputdoc]
      rw [putV_cons_ne (docShardName_aName_ne_global 0)]
      rw [show putV
          ((globalName, VBlob.ok
            (⟨1, bootstrapEntry :: (List.range n).map aEntry⟩ : Shard)) ::
            ((List.range' 1 (n - 1)).map aPair ++
              [(docShardName (aName n),
                VBlob.ok (addTexts (emptyIndex 1) ["t"]
                  ((metasOrDefault ["t"] none).map (enrich (aName n) 0))))]))
          globalName
          (VBlob.ok (addTexts ⟨1, bootstrapEntry :: (List.range n).map aEntry⟩
            ["t"] ((metasOrDefault ["t"] none).map (enrich (aName n) 0)))) =
          (globalName,
            VBlob.ok (addTexts ⟨1, bootstrapEntry :: (List.range n).map aEntry⟩
              ["t"] ((metasOrDefault ["t"] none).map (enrich (aName n) 0)))) ::
            ((List.range' 1 (n - 1)).map aPair ++
              [(docShardName (aName n),
                VBlob.ok (addTexts (emptyIndex 1) ["t"]
                  ((metasOrDefault ["t"] none).map (enrich (aName n) 0))))])
        from by simp [putV]]
      have hgnew : addTexts ⟨1, bootstrapEntry :: (List.range n).map aEntry⟩
          ["t"] ((metasOrDefault ["t"] none).map (enrich (aName n) 0)) =
          (⟨1, bootstrapEntry :: (List.range (n + 1)).map aEntry⟩ : Shard) := by
        rw [show addTexts ⟨1, bootstrapEntry :: (List.range n).map aEntry⟩
            ["t"] ((metasOrDefault ["t"] none).map (enrich (aName n) 0)) =
            (⟨1, (bootstrapEntry :: (List.range n).map aEntry) ++ [aEntry n]⟩ :
              Shard) from rfl]
        rw [List.range_succ, List.map_append, List.cons_append]
        exact rfl
      have hdnew : (docShardName (aName n),
          VBlob.ok (addTexts (emptyIndex 1) ["t"]
            ((metasOrDefault ["t"] none).map (enrich (aName n) 0)))) =
          aPair n := rfl
      rw [hgnew, hdnew]
      have htail : (List.range' 1 (n - 1)).map aPair ++ [aPair n] =
          (List.range' 1 n).map aPair := by
        rw [show [aPair n] = List.map aPair [n] from rfl, ← List.map_append]
        congr 1
        have := @List.range'_concat 1 1 (n - 1)
        rw [show 1 + 1 * (n - 1) = n by omega] at this
        rw [show n - 1 + 1 = n by omega] at this
        exact this.symm
      rw [htail]
      rfl

end BookVec

namespace BookVec

theorem lookupV_append_of_forall_ne {l1 l2 : VStore} {n : String}
    (h : ∀ p ∈ l1, p.1 ≠ n) :
    lookupV (l1 ++ l2) n = lookupV l2 n := by
  induction l1 with
  | nil => rfl
  | cons p t ih =>
    rw [List.cons_append, lookupV_cons_ne (h p (List.mem_cons_self p t))]
    exact ih (fun q hq => h q (List.mem_cons_of_mem p hq))

theorem aEntry_inj {i j : Nat} (h : aEntry i = aEntry j) : i = j := by
  have hid := congrArg (fun e => e.meta.doc_id) h
  simp only [aEntry] at hid
  injection hid with hid
  have hlen := congrArg (fun s : String => s.data.length) hid
  simp only [aName_data, List.length_replicate] at hlen
  omega

theorem aEntry_ne_bootstrap (i : Nat) : aEntry i ≠ bootstrapEntry := by
  intro h
  have ht : ("t" : String) = "__bootstrap__" := congrArg Entry.text h
  exact absurd ht (by decide)

theorem okShards_map_aPair (l : List Nat) :
    okShards (l.map aPair) = l.map aShard := by
  induction l with
  | nil => rfl
  | cons i t ih =>
    rw [List.map_cons, List.map_cons,
      show aPair i = (docShardName (aName i), VBlob.ok (aShard i)) from rfl,
      okShards_cons_ok, ih]

theorem reachable_buildState : ∀ k, ReachableV 1 (buildState k) := by
  intro k
  induction k with
  | zero => exact Relation.ReflTransGen.refl
  | succ n ih =>
    exact Relation.ReflTransGen.tail ih
      (StepV.upsert_step (buildState n) 0 (aName n) ["t"] none)

end BookVec

namespace BookVec

theorem buildState_1001_eq :
    buildState 1001 =
      aPair 0 ::
        (globalName,
          VBlob.ok ⟨1, bootstrapEntry :: (List.range 1001).map aEntry⟩) ::
        (List.range' 1 1000).map aPair := by
  have h := buildState_char 1001 (by norm_num)
  rw [show (1001 : Nat) - 1 = 1000 from by norm_num] at h
  exact h

theorem zipPred_aPair (i : Nat) :
    (endsWithZip (aPair i).1 && decide ((aPair i).1 ≠ globalName)) = true := by
  show (endsWithZip (docShardName (aName i)) &&
    decide (docShardName (aName i) ≠ globalName)) = true
  rw [Bool.and_eq_true]
  exact ⟨endsWithZip_docShardName _, decide_eq_true (docShardName_aName_ne_global i)⟩

theorem filter_zip_map_aPair (l : List Nat) :
    (l.map aPair).filter
        (fun p => endsWithZip p.1 && decide (p.1 ≠ globalName)) =
      l.map aPair := by
  apply List.filter_eq_self.mpr
  intro p hp
  rcases List.mem_map.mp hp with ⟨i, _, rfl⟩
  exact zipPred_aPair i

theorem docZipFiles_buildState_1001 :
    docZipFiles (buildState 1001) =
      aPair 0 :: (List.range' 1 998).map aPair := by
  rw [buildState_1001_eq]
  simp only [docZipFiles]
  rw [show (1000 : Nat) = 999 + 1 from by norm_num, List.take_succ_cons,
    show (999 : Nat) = 998 + 1 from by norm_num, List.take_succ_cons]
  have hsplit : List.range' 1 1000 = List.range' 1 998 ++ List.range' 999 2 := by
    have h := List.range'_append 1 998 2 1
    norm_num at h
    exact h.symm
  rw [hsplit, List.map_append, List.take_left' (by simp)]
  have hpg : ¬ ((endsWithZip
      (globalName,
        VBlob.ok (⟨1, bootstrapEntry :: (List.range 1001).map aEntry⟩ : Shard)).1 &&
      decide ((globalName,
        VBlob.ok (⟨1, bootstrapEntry :: (List.range 1001).map aEntry⟩ : Shard)).1
          ≠ globalName)) = true) := by
    simp
  rw [@List.filter_cons_of_pos _
      (fun p => endsWithZip p.1 && decide (p.1 ≠ globalName)) (aPair 0) _
      (zipPred_aPair 0),
    @List.filter_cons_of_neg _
      (fun p : String × VBlob => endsWithZip p.1 && decide (p.1 ≠ globalName))
      _ _ hpg,
    filter_zip_map_aPair]

theorem okShards_docZip_1001 :
    okShards (docZipFiles (buildState 1001)) =
      aShard 0 :: (List.range' 1 998).map aShard := by
  rw [docZipFiles_buildState_1001,
    show aPair 0 = (docShardName (aName 0), VBlob.ok (aShard 0)) from rfl,
    okShards_cons_ok, okShards_map_aPair]

theorem dims_docZip_1001 :
    ∀ sh ∈ okShards (docZipFiles (buildState 1001)), sh.dim = 1 := by
  rw [okShards_docZip_1001]
  intro sh hsh
  rcases List.mem_cons.mp hsh with h | h
  · rw [h]; rfl
  · rcases List.mem_map.mp h with ⟨i, _, rfl⟩
    rfl

theorem rebuild_buildState_1001 :
    (rebuild 1 (buildState 1001)).1 =
      aPair 0 ::
        (globalName, VBlob.ok ⟨1,
          ((aShard 0 :: (List.range' 1 998).map aShard).map
            (fun sh => sh.entries)).flatten⟩) ::
        (List.range' 1 1000).map aPair := by
  have h := rebuild_eq_of_dims dims_docZip_1001
  rw [okShards_docZip_1001] at h
  rw [if_neg (by simp)] at h
  rw [h, buildState_1001_eq]
  show putV _ globalName _ = _
  rw [putV_cons_ne (docShardName_aName_ne_global 0)]
  simp [putV]

theorem lookup_a1000_after_rebuild :
    lookupV (rebuild 1 (buildState 1001)).1 (docShardName (aName 1000)) =
      some (VBlob.ok ⟨1, [bootstrapEntry, aEntry 1000]⟩) := by
  rw [rebuild_buildState_1001,
    lookupV_cons_ne (docShardName_aName_ne (show (0 : Nat) ≠ 1000 from by norm_num)),
    lookupV_cons_ne (Ne.symm (docShardName_aName_ne_global 1000))]
  have hsplit : List.range' 1 1000 = List.range' 1 999 ++ [1000] := by
    have h := @List.range'_concat 1 1 999
    norm_num at h
    exact h
  rw [hsplit, show ([1000] : List Nat) = 1000 :: [] from rfl, List.map_append,
    lookupV_append_of_forall_ne]
  · simp [lookupV, aPair]
  · intro p hp
    rcases List.mem_map.mp hp with ⟨i, hi, rfl⟩
    have hlt := List.mem_range'_1.mp hi
    exact docShardName_aName_ne (by omega)

theorem aEntry_1000_not_in_merged :
    aEntry 1000 ∉
      ((aShard 0 :: (List.range' 1 998).map aShard).map
        (fun sh => sh.entries)).flatten := by
  intro hmem
  rw [show aShard 0 :: (List.range' 1 998).map aShard =
      (0 :: List.range' 1 998).map aShard from rfl, List.map_map] at hmem
  rcases List.mem_flatten.mp hmem with ⟨le, hle, hin⟩
  rcases List.mem_map.mp hle with ⟨i, hi, rfl⟩
  have hile : i ≤ 998 := by
    rcases List.mem_cons.mp hi with h | h
    · omega
    · have := List.mem_range'_1.mp h
      omega
  simp only [Function.comp, aShard] at hin
  rcases List.mem_cons.mp hin with h | h
  · exact aEntry_ne_bootstrap 1000 h
  · rcases List.mem_cons.mp h with h2 | h2
    · have := aEntry_inj h2
      omega
    · simp at h2

theorem globalEntries_after_rebuild :
    globalEntriesOf (rebuild 1 (buildState 1001)).1 =
      ((aShard 0 :: (List.range' 1 998).map aShard).map
        (fun sh => sh.entries)).flatten := by
  have h := rebuild_eq_of_dims dims_docZip_1001
  rw [okShards_docZip_1001] at h
  rw [if_neg (by simp)] at h
  have h1 : (rebuild 1 (buildState 1001)).1 =
      putV (buildState 1001) globalName (VBlob.ok ⟨1,
        ((aShard 0 :: (List.range' 1 998).map aShard).map
          (fun sh => sh.entries)).flatten⟩) := by
    rw [h]
  rw [h1, globalEntriesOf_put]

theorem reachable_after_capped_rebuild :
    ReachableV 1 (rebuild 1 (buildState 1001)).1 :=
  Relation.ReflTransGen.tail (reachable_buildState 1001)
    (StepV.rebuild_step (buildState 1001))

end BookVec

namespace BookVec

/-- C4 counterexample: the superset invariant breaks one step past the
listing cap.  Flooding the store with upserts for 1001 distinct documents
(1002 files) and then rebuilding reaches a state in which the per-document
shard of `aName 1000` still holds its upserted entry, but that entry is
missing from the freshly persisted global shard: the rebuild's single
`list_files_in_folder(..., limit=1000)` page covers only the first 1000
files, so the two unlisted doc shards are silently left out of the merge. -/
theorem global_superset_fails_beyond_listing_cap :
    ReachableV 1 (rebuild 1 (buildState 1001)).1 ∧
    docShardName (aName 1000) ≠ globalName ∧
    lookupV (rebuild 1 (buildState 1001)).1 (docShardName (aName 1000)) =
      some (VBlob.ok ⟨1, [bootstrapEntry, aEntry 1000]⟩) ∧
    aEntry 1000 ∈ (⟨1, [bootstrapEntry, aEntry 1000]⟩ : Shard).entries ∧
    aEntry 1000 ∉ globalEntriesOf (rebuild 1 (buildState 1001)).1 :=
  ⟨reachable_after_capped_rebuild, docShardName_aName_ne_global 1000,
    lookup_a1000_after_rebuild,
    List.mem_cons_of_mem _ (List.mem_cons_self _ _),
    fun hmem => aEntry_1000_not_in_merged (globalEntries_after_rebuild ▸ hmem)⟩

end BookVec
